import Mathlib

/-!
Verification of the A* search core of the grid pathfinding visualization
(source file: src/js/sketch.js).

The JavaScript program keeps a 2D array of cell objects, each carrying
an obstacle flag and the A* bookkeeping fields g, h, f and a parent
pointer, plus global open/closed lists, a final path and a running flag.
We embed this state shallowly:

  * coordinates are the structure Coord (natural x, y, as in the source);
  * JavaScript numbers that can be Infinity (the g and f fields) become
    the type JVal with constructors fin and inf, with comparison
    functions mirroring the JavaScript comparisons on these values;
  * the mutable cell array becomes a function Coord → Cell, updated
    pointwise (the spec itself notes the cell graph is reproducible as
    an index-based arena);
  * the engine's lifecycle (isSimulationRunning plus the outcome of the
    main loop) is modelled by the Status inductive of the specification:
    running, succeeded (goal reached and path reconstructed), failed
    (open list exhausted or iteration cap exceeded), cancelled
    (clearAlgorithmState during a run);
  * one iteration of the while loop in startSimulation becomes the
    function step; the await sleep(...) suspension point in the middle
    of the loop body splits it into expandSelect (select minimum-f cell,
    move it to the closed list) and stepB (goal test, neighbor updates,
    iteration-cap test), which lets us also model a user edit arriving
    at the suspension point (stepWithEdit);
  * reconstructPath's unbounded parent walk becomes a fuelled walk
    chainW; the fuel cols * rows + 1 exceeds any possible parent-chain
    length, so the fuel never truncates the walk in reachable states.
-/

namespace AStar

/-- Integer grid coordinates, as the x/y fields of a cell in the source. -/
structure Coord where
  x : Nat
  y : Nat
deriving DecidableEq

/-- A JavaScript number used for the g and f fields: a natural number or
Infinity. All arithmetic the source performs on these values stays in
this set. -/
inductive JVal where
  | fin : Nat → JVal
  | inf : JVal
deriving DecidableEq

namespace JVal

/-- The JavaScript comparison a < b on g/f values. -/
def lt : JVal → JVal → Bool
  | .fin a, .fin b => decide (a < b)
  | .fin _, .inf => true
  | .inf, _ => false

/-- The JavaScript comparison a >= b on g/f values. -/
def ge : JVal → JVal → Bool
  | .inf, _ => true
  | .fin a, .fin b => decide (b ≤ a)
  | .fin _, .inf => false

/-- Adding the unit edge cost: currentCell.g + 1. -/
def add1 : JVal → JVal
  | .fin a => .fin (a + 1)
  | .inf => .inf

/-- Adding a finite heuristic: neighbor.g + neighbor.h. -/
def addNat : JVal → Nat → JVal
  | .fin a, b => .fin (a + b)
  | .inf, _ => .inf

end JVal

/-- The per-cell mutable fields of a grid cell (the x, y coordinates are
the index into the arena, and the neighbor list is recomputed from the
topology by the function neighbors below). -/
structure Cell where
  obstacle : Bool
  g : JVal
  h : Nat
  f : JVal
  parent : Option Coord
deriving DecidableEq

/-- Engine lifecycle states, per the specification's state machine.
The source tracks running-ness with the isSimulationRunning flag; the
three terminal states record how the main loop ended. -/
inductive Status where
  | running
  | succeeded
  | failed
  | cancelled
deriving DecidableEq

/-- The global search state of startSimulation: the cell arena, the open
and closed lists, the final path, the lifecycle status and the iteration
counter of the main loop. -/
structure SState where
  cells : Coord → Cell
  openL : List Coord
  closedL : List Coord
  finalPath : List Coord
  status : Status
  iterations : Nat

/-- Math.abs (a - b) for natural inputs. -/
def absDiff (a b : Nat) : Nat := (a - b) + (b - a)

/-- manhattanDistance from the source: Math.abs (x1 - x2) + Math.abs (y1 - y2). -/
def manhattanDistance (a b : Coord) : Nat :=
  absDiff a.x b.x + absDiff a.y b.y

/-- addNeighbors from the source: the orthogonal neighbors of a cell, in
the push order of the source (left, right, up, down), each guarded by
the same bounds checks. -/
def neighbors (cols rows : Nat) (c : Coord) : List Coord :=
  (if 0 < c.x then [⟨c.x - 1, c.y⟩] else []) ++
  (if c.x < cols - 1 then [⟨c.x + 1, c.y⟩] else []) ++
  (if 0 < c.y then [⟨c.x, c.y - 1⟩] else []) ++
  (if c.y < rows - 1 then [⟨c.x, c.y + 1⟩] else [])

/-- A coordinate lies on the cols × rows grid. -/
def inRange (cols rows : Nat) (c : Coord) : Prop :=
  c.x < cols ∧ c.y < rows

instance (cols rows : Nat) (c : Coord) : Decidable (inRange cols rows c) := by
  unfold inRange; infer_instance

/-- Pointwise update of the cell arena (assignment to one cell object). -/
def updateCell (cells : Coord → Cell) (a : Coord) (v : Cell) : Coord → Cell :=
  fun c => if c = a then v else cells c

/-- The reset loops of startSimulation and clearAlgorithmState: every
cell gets g = Infinity, h = 0, f = Infinity, parent = null; the obstacle
flag is untouched. -/
def resetCells (cells : Coord → Cell) : Coord → Cell :=
  fun c => { cells c with g := .inf, h := 0, f := .inf, parent := none }

/-- The body of the neighbor forEach in startSimulation, for one
neighbor n of the current cell cur: skip obstacles and closed cells;
compute tentativeG = currentCell.g + 1; push the neighbor onto the open
list if absent, or return early if tentativeG >= neighbor.g; otherwise
write parent, g, h, f. -/
def processNeighbor (goal cur : Coord) (s : SState) (n : Coord) : SState :=
  if (s.cells n).obstacle = true ∨ n ∈ s.closedL then s
  else
    let tentativeG := (s.cells cur).g.add1
    let h0 := manhattanDistance n goal
    let newCell : Cell :=
      { s.cells n with parent := some cur, g := tentativeG, h := h0,
                       f := tentativeG.addNat h0 }
    if n ∈ s.openL then
      if tentativeG.ge ((s.cells n).g) = true then s
      else
        { s with cells := updateCell s.cells n newCell }
    else
      { s with openL := s.openL ++ [n],
               cells := updateCell s.cells n newCell }

/-- The cell contents written by the neighbor forEach body when it does
update a neighbor n of the current cell cur: parent, g, h and f as
assigned by the source. -/
def writtenCell (goal cur : Coord) (cells : Coord → Cell) (n : Coord) : Cell :=
  { cells n with parent := some cur, g := (cells cur).g.add1,
                 h := manhattanDistance n goal,
                 f := ((cells cur).g.add1).addNat (manhattanDistance n goal) }

/-- The linear minimum scan of startSimulation: starting from the best
candidate b found at index bi, scan the remaining cells l (which sit at
indices i, i+1, ... of the open list), moving the candidate whenever a
strictly smaller f is found. Returns the selected cell and its index. -/
def findMinFrom (cells : Coord → Cell) : Coord × Nat → Nat → List Coord → Coord × Nat
  | b, _, [] => b
  | b, i, c :: rest =>
      if ((cells c).f.lt ((cells b.1).f)) = true then
        findMinFrom cells (c, i) (i + 1) rest
      else
        findMinFrom cells b (i + 1) rest

/-- The selection phase of one loop iteration: increment the iteration
counter, select the open cell with minimal f (first minimum in list
order), splice it out of the open list and push it onto the closed list.
This is the part of the loop body that runs before await sleep(...). -/
def expandSelect (s : SState) (c0 : Coord) (rest : List Coord) : Coord × SState :=
  let r := findMinFrom s.cells (c0, 0) 1 rest
  (r.1, { s with iterations := s.iterations + 1,
                 openL := (c0 :: rest).eraseIdx r.2,
                 closedL := s.closedL ++ [r.1] })

/-- The parent-pointer walk of reconstructPath: while (current) { push
current; current = current.parent }. The source loop is unbounded; the
embedding carries fuel, which callers set large enough that it never
truncates a chain arising in a reachable state. -/
def chainW (cells : Coord → Cell) : Nat → Option Coord → List Coord
  | _, none => []
  | 0, some _ => []
  | fuel + 1, some c => c :: chainW cells fuel ((cells c).parent)

/-- reconstructPath from the source: walk parent pointers from endCell,
then reverse to get start → goal order. -/
def reconstructPath (cells : Coord → Cell) (fuel : Nat) (endCell : Coord) : List Coord :=
  (chainW cells fuel (some endCell)).reverse

/-- sleep from the source: if the delay is disabled the promise resolves
immediately, otherwise it resolves after a timeout. Neither branch
touches any algorithm state. -/
def sleep (delayEnabled : Bool) (s : SState) : SState :=
  match delayEnabled with
  | false => s
  | true => s

/-- The rest of one loop iteration after the await sleep(...) point: the
goal test (reconstruct the path and stop with success), otherwise the
neighbor forEach followed by the iteration-cap test (iterations > 5000
breaks the loop, modelled as the failed state). -/
def stepB (cols rows : Nat) (goal : Coord) (cur : Coord) (s : SState) : SState :=
  if cur = goal then
    { s with finalPath := reconstructPath s.cells (cols * rows + 1) cur,
             status := .succeeded }
  else
    let t := (neighbors cols rows cur).foldl (processNeighbor goal cur) s
    if 5000 < t.iterations then { t with status := .failed } else t

/-- One iteration of the while loop of startSimulation, including the
loop condition: terminal states are fixed points (the loop has exited);
an empty open list exits the loop without a path, modelled as failed;
otherwise run selection, the (state-neutral) sleep, and the remainder of
the body. -/
def step (delay : Bool) (cols rows : Nat) (goal : Coord) (s : SState) : SState :=
  if s.status = .running then
    match s.openL with
    | [] => { s with status := .failed }
    | c0 :: rest =>
        let r := expandSelect s c0 rest
        stepB cols rows goal r.1 (sleep delay r.2)
  else s

/-- The initialization phase of startSimulation (after the early-return
running check): reset every cell, clear the three lists, set the start
cell's g = 0, h = manhattanDistance(start, goal), f = g + h, and push
the start cell onto the open list. -/
def initState (grid : Coord → Cell) (startC goalC : Coord) : SState :=
  let cells0 := resetCells grid
  let h0 := manhattanDistance startC goalC
  let startCell : Cell :=
    { cells0 startC with g := .fin 0, h := h0, f := (JVal.fin 0).addNat h0 }
  { cells := updateCell cells0 startC startCell,
    openL := [startC], closedL := [], finalPath := [],
    status := .running, iterations := 0 }

/-- The state after n iterations of the main loop on a freshly
initialized run. -/
def runN (delay : Bool) (cols rows : Nat) (grid : Coord → Cell)
    (startC goalC : Coord) (n : Nat) : SState :=
  Nat.iterate (step delay cols rows goalC) n (initState grid startC goalC)

/-- Running the search to completion: the loop performs at most 5001
iterations (iteration cap 5000, tested after incrementing), so 5002
applications of step always reach a terminal state, which is a fixed
point of step. -/
def runToCompletion (delay : Bool) (cols rows : Nat) (grid : Coord → Cell)
    (startC goalC : Coord) : SState :=
  runN delay cols rows grid startC goalC 5002

/-- clearAlgorithmState from the source: stopSimulation (the running
flag is dropped, modelled as the cancelled lifecycle state), the three
lists are emptied and every cell's search fields are reset. -/
def clearAlgorithmState (s : SState) : SState :=
  { s with status := .cancelled, openL := [], closedL := [], finalPath := [],
           cells := resetCells s.cells }

/-- The drawing mode of the UI (which marker the pointer paints). -/
inductive DrawMode where
  | obstacle
  | start
  | goal
deriving DecidableEq

/-- The action mode of the UI (paint or erase). -/
inductive ActionMode where
  | draw
  | erase
deriving DecidableEq

/-- The cell mutation of handleMouseAction at an in-range cell c:
drawing an obstacle is skipped on the current start/goal cell; drawing
start (or goal) clears the obstacle flag of the old and the new marker
cell and moves the marker; erasing clears an obstacle flag. Returns the
new start marker, the new goal marker and the new arena. -/
def applyDraw (dm : DrawMode) (am : ActionMode) (c startC goalC : Coord)
    (cells : Coord → Cell) : Coord × Coord × (Coord → Cell) :=
  match am with
  | .draw =>
    match dm with
    | .obstacle =>
        if c ≠ startC ∧ c ≠ goalC then
          (startC, goalC, updateCell cells c ({ cells c with obstacle := true }))
        else (startC, goalC, cells)
    | .start =>
        let cells1 := updateCell cells startC ({ cells startC with obstacle := false })
        (c, goalC, updateCell cells1 c ({ cells1 c with obstacle := false }))
    | .goal =>
        let cells1 := updateCell cells goalC ({ cells goalC with obstacle := false })
        (startC, c, updateCell cells1 c ({ cells1 c with obstacle := false }))
  | .erase =>
      if (cells c).obstacle = true then
        (startC, goalC, updateCell cells c ({ cells c with obstacle := false }))
      else (startC, goalC, cells)

/-- handleMouseAction from the source: out-of-range pointer positions do
nothing; in-range ones apply the draw/erase mutation and then always
call clearAlgorithmState. -/
def handleMouseAction (cols rows : Nat) (dm : DrawMode) (am : ActionMode)
    (x y : Nat) (startC goalC : Coord) (s : SState) : Coord × Coord × SState :=
  if x < cols ∧ y < rows then
    let r := applyDraw dm am ⟨x, y⟩ startC goalC s.cells
    (r.1, r.2.1, clearAlgorithmState { s with cells := r.2.2 })
  else (startC, goalC, s)

/-- One loop iteration during whose await sleep(...) suspension a mouse
edit arrives. The event loop can only run handleMouseAction while
startSimulation is suspended at the await, which sits between the
selection phase and the rest of the body; the resumed body then finishes
the iteration on the cleared state (the local currentCell variable still
holds the previously selected cell), after which the loop condition
fails. -/
def stepWithEdit (delay : Bool) (cols rows : Nat) (goal : Coord)
    (dm : DrawMode) (am : ActionMode) (x y : Nat) (startC goalC : Coord)
    (s : SState) : Coord × Coord × SState :=
  if s.status = .running then
    match s.openL with
    | [] => (startC, goalC, step delay cols rows goal s)
    | c0 :: rest =>
        let r := expandSelect s c0 rest
        let e := handleMouseAction cols rows dm am x y startC goalC (sleep delay r.2)
        (e.1, e.2.1, stepB cols rows goal r.1 e.2.2)
  else (startC, goalC, s)

/-- A JavaScript runtime fault escaping startSimulation. -/
inductive JsError where
  | typeError
deriving DecidableEq

/-- The entry of startSimulation, including its failure behavior. A run
already in progress returns immediately (the early isSimulationRunning
check). Otherwise the running flag is set and every cell and list is
reset; then startCell.g = 0 throws a TypeError if the start cell is
undefined, and reading goalCell.x inside manhattanDistance throws if the
goal cell is undefined — in both cases after the state was already
mutated. With both endpoints defined the main loop runs to completion.
The first component reports a thrown fault; the second is the program
state when startSimulation returns or the fault escapes. -/
def startSimulation (delay : Bool) (cols rows : Nat)
    (startC goalC : Option Coord) (s : SState) : Option JsError × SState :=
  if s.status = .running then (none, s)
  else
    let s0 : SState :=
      { s with status := .running, cells := resetCells s.cells,
               openL := [], closedL := [], finalPath := [], iterations := 0 }
    match startC with
    | none => (some .typeError, s0)
    | some st =>
      match goalC with
      | none =>
          let started : Cell := { s0.cells st with g := .fin 0 }
          (some .typeError, { s0 with cells := updateCell s0.cells st started })
      | some gl => (none, runToCompletion delay cols rows s.cells st gl)


/-- Sanity of the two frontier lists: no duplicates, and no cell is in
the open and the closed list at once. -/
structure SlimInv (s : SState) : Prop where
  openNodup : s.openL.Nodup
  closedNodup : s.closedL.Nodup
  disj : ∀ c ∈ s.openL, c ∉ s.closedL

/-! ### Concrete grids used to instantiate the theorems -/

/-- A cell in its freshly initialized state: free, undiscovered. -/
def freeCell : Cell :=
  { obstacle := false, g := .inf, h := 0, f := .inf, parent := none }

/-- A grid with no obstacles. -/
def freeGrid : Coord → Cell := fun _ => freeCell

/-- A grid whose only obstacle is at the given coordinate. -/
def obstacleAt (c0 : Coord) : Coord → Cell :=
  fun c => if c = c0 then { freeCell with obstacle := true } else freeCell

/-- A grid exercising all neighbor-evaluation cases: a cheap discovered
cell at the origin, an expensive open cell next to it, an obstacle, and
free space elsewhere. -/
def gridC3 : Coord → Cell :=
  fun c =>
    if c = ⟨0, 0⟩ then { freeCell with g := .fin 0 }
    else if c = ⟨1, 0⟩ then { freeCell with g := .fin 5 }
    else if c = ⟨2, 0⟩ then { freeCell with obstacle := true }
    else freeCell

/-- A mid-run state over gridC3 with one open and one closed cell. -/
def stateC3 : SState :=
  { cells := gridC3, openL := [⟨1, 0⟩], closedL := [⟨3, 0⟩], finalPath := [],
    status := .running, iterations := 0 }

/-- A running state whose iteration counter already sits at the cap. -/
def stateC5 : SState :=
  { cells := freeGrid, openL := [⟨0, 0⟩, ⟨3, 0⟩], closedL := [], finalPath := [],
    status := .running, iterations := 5000 }

/-- A terminal mid-run state with residual search data, as left behind
by an earlier cancelled run. -/
def stateC9 : SState :=
  { cells := freeGrid, openL := [⟨0, 0⟩], closedL := [⟨1, 0⟩], finalPath := [⟨0, 0⟩],
    status := .cancelled, iterations := 3 }

/-- Each step of the cell sequence moves to a grid neighbor of the
previous cell. -/
def ChainOk (cols rows : Nat) : List Coord → Prop
  | [] => True
  | [_] => True
  | u :: v :: rest => v ∈ neighbors cols rows u ∧ ChainOk cols rows (v :: rest)

instance instDecChainOk (cols rows : Nat) :
    (p : List Coord) → Decidable (ChainOk cols rows p)
  | [] => isTrue trivial
  | [_] => isTrue trivial
  | _ :: v :: rest =>
      haveI := instDecChainOk cols rows (v :: rest)
      inferInstanceAs (Decidable (_ ∧ _))

/-- An obstacle-free path on the cols × rows grid from a to b: a
non-empty cell sequence starting at a, ending at b, moving through grid
neighbors, with no obstacle on any of its cells. Obstacles that do not
separate start from goal are exactly those grids for which such a path
exists. -/
def IsFreePath (cols rows : Nat) (grid : Coord → Cell) (a b : Coord)
    (p : List Coord) : Prop :=
  p.head? = some a ∧ p.getLast? = some b ∧
  (∀ c ∈ p, (grid c).obstacle = false) ∧
  ChainOk cols rows p

instance (cols rows : Nat) (grid : Coord → Cell) (a b : Coord) (p : List Coord) :
    Decidable (IsFreePath cols rows grid a b p) :=
  inferInstanceAs (Decidable (_ ∧ _ ∧ _ ∧ _))

/-- The part of the run invariant that is maintained throughout the
neighbor fold of one expansion of the cell cur. -/
structure MidInv (cols rows : Nat) (grid : Coord → Cell) (startC : Coord)
    (cur : Coord) (t : SState) : Prop where
  slim : SlimInv t
  obstacleEq : ∀ c : Coord, (t.cells c).obstacle = (grid c).obstacle
  memRange : ∀ c : Coord, (c ∈ t.openL ∨ c ∈ t.closedL) → inRange cols rows c
  frontierOld : ∀ c ∈ t.closedL, c ≠ cur → ∀ nb ∈ neighbors cols rows c,
      (grid nb).obstacle = false → nb ∈ t.openL ∨ nb ∈ t.closedL
  startClosed : startC ∈ t.closedL
  startCellInv : (t.cells startC).g = JVal.fin 0 ∧ (t.cells startC).parent = none
  memFinite : ∀ c : Coord, (c ∈ t.openL ∨ c ∈ t.closedL) →
      ∃ k : Nat, (t.cells c).g = JVal.fin k
  finiteMem : ∀ (c : Coord) (k : Nat), (t.cells c).g = JVal.fin k →
      c ∈ t.openL ∨ c ∈ t.closedL
  parentInv : ∀ (c p : Coord), (t.cells c).parent = some p →
      p ∈ t.closedL ∧ c ∈ neighbors cols rows p ∧
      ∃ k : Nat, (t.cells p).g = JVal.fin k ∧ (t.cells c).g = JVal.fin (k + 1)
  parentOfFinite : ∀ (c : Coord) (k : Nat), (t.cells c).g = JVal.fin k →
      c ≠ startC → (t.cells c).parent ≠ none
  iterEq : t.iterations = t.closedL.length
  gBound : ∀ (c : Coord) (k : Nat), (t.cells c).g = JVal.fin k → k ≤ t.iterations

/-- The run invariant: holds in every state reachable from a freshly
initialized run with an in-range start cell. -/
structure Inv (cols rows : Nat) (grid : Coord → Cell) (startC goalC : Coord)
    (s : SState) : Prop where
  slim : SlimInv s
  obstacleEq : ∀ c : Coord, (s.cells c).obstacle = (grid c).obstacle
  memRange : ∀ c : Coord, (c ∈ s.openL ∨ c ∈ s.closedL) → inRange cols rows c
  frontier : s.status = .running → ∀ c ∈ s.closedL, ∀ nb ∈ neighbors cols rows c,
      (grid nb).obstacle = false → nb ∈ s.openL ∨ nb ∈ s.closedL
  startPlaced : s.status = .running →
      startC ∈ s.closedL ∨ (s.openL = [startC] ∧ s.closedL = [])
  goalOpen : s.status = .running → goalC ∉ s.closedL
  startCellInv : (s.cells startC).g = JVal.fin 0 ∧ (s.cells startC).parent = none
  memFinite : ∀ c : Coord, (c ∈ s.openL ∨ c ∈ s.closedL) →
      ∃ k : Nat, (s.cells c).g = JVal.fin k
  finiteMem : ∀ (c : Coord) (k : Nat), (s.cells c).g = JVal.fin k →
      c ∈ s.openL ∨ c ∈ s.closedL
  parentInv : ∀ (c p : Coord), (s.cells c).parent = some p →
      p ∈ s.closedL ∧ c ∈ neighbors cols rows p ∧
      ∃ k : Nat, (s.cells p).g = JVal.fin k ∧ (s.cells c).g = JVal.fin (k + 1)
  parentOfFinite : ∀ (c : Coord) (k : Nat), (s.cells c).g = JVal.fin k →
      c ≠ startC → (s.cells c).parent ≠ none
  iterEq : s.iterations = s.closedL.length
  gBound : ∀ (c : Coord) (k : Nat), (s.cells c).g = JVal.fin k → k ≤ s.iterations
  succInv : s.status = .succeeded →
      s.finalPath = reconstructPath s.cells (cols * rows + 1) goalC ∧
      goalC ∈ s.closedL

/-! ### Basic lemmas about the JavaScript value comparisons -/

theorem JVal.ge_eq_not_lt (a b : JVal) : a.ge b = !(a.lt b) := by
  cases a <;> cases b <;>
    simp only [JVal.ge, JVal.lt, Bool.not_true, Bool.not_false, ← decide_not] <;>
    first
      | rfl
      | (rw [decide_eq_decide]; omega)

theorem JVal.not_lt_trans {a b c : JVal} (h1 : a.lt b = false)
    (h2 : b.lt c = false) : a.lt c = false := by
  cases a <;> cases b <;> cases c <;> simp_all [JVal.lt] <;> omega

theorem JVal.lt_trans {a b c : JVal} (h1 : a.lt b = true)
    (h2 : b.lt c = true) : a.lt c = true := by
  cases a <;> cases b <;> cases c <;> simp_all [JVal.lt] <;> omega

theorem JVal.lt_of_lt_of_not_lt {a b c : JVal} (h1 : a.lt b = true)
    (h2 : c.lt b = false) : a.lt c = true := by
  cases a <;> cases b <;> cases c <;> simp_all [JVal.lt] <;> omega

/-! ### Shape lemmas for the neighbor-processing body -/

theorem processNeighbor_proj (goal cur : Coord) (t : SState) (n : Coord) :
    (processNeighbor goal cur t n).closedL = t.closedL ∧
    (processNeighbor goal cur t n).status = t.status ∧
    (processNeighbor goal cur t n).iterations = t.iterations ∧
    (processNeighbor goal cur t n).finalPath = t.finalPath := by
  by_cases h1 : (t.cells n).obstacle = true ∨ n ∈ t.closedL
  · simp [processNeighbor, h1]
  · by_cases h2 : n ∈ t.openL
    · by_cases h3 : ((t.cells cur).g.add1).ge ((t.cells n).g) = true
      · simp [processNeighbor, h1, h2, h3]
      · simp [processNeighbor, h1, h2, h3]
    · simp [processNeighbor, h1, h2]

theorem processNeighbor_closedL (goal cur : Coord) (t : SState) (n : Coord) :
    (processNeighbor goal cur t n).closedL = t.closedL :=
  (processNeighbor_proj goal cur t n).1

theorem processNeighbor_status (goal cur : Coord) (t : SState) (n : Coord) :
    (processNeighbor goal cur t n).status = t.status :=
  (processNeighbor_proj goal cur t n).2.1

theorem processNeighbor_iterations (goal cur : Coord) (t : SState) (n : Coord) :
    (processNeighbor goal cur t n).iterations = t.iterations :=
  (processNeighbor_proj goal cur t n).2.2.1

theorem processNeighbor_finalPath (goal cur : Coord) (t : SState) (n : Coord) :
    (processNeighbor goal cur t n).finalPath = t.finalPath :=
  (processNeighbor_proj goal cur t n).2.2.2

/-- Case analysis on one neighbor-processing application: either the
state is untouched, or the neighbor (not an obstacle, not closed) has
its fields rewritten, with an open-list push exactly when it was not yet
open. -/
theorem processNeighbor_eq_or (goal cur : Coord) (t : SState) (n : Coord) :
    processNeighbor goal cur t n = t ∨
    (n ∉ t.closedL ∧ (t.cells n).obstacle = false ∧
     (processNeighbor goal cur t n).cells =
       updateCell t.cells n (writtenCell goal cur t.cells n) ∧
     ((n ∈ t.openL ∧ (processNeighbor goal cur t n).openL = t.openL) ∨
      (n ∉ t.openL ∧ (processNeighbor goal cur t n).openL = t.openL ++ [n]))) := by
  by_cases h1 : (t.cells n).obstacle = true ∨ n ∈ t.closedL
  · left
    simp [processNeighbor, h1]
  · obtain ⟨hob, hcl⟩ := not_or.mp h1
    by_cases h2 : n ∈ t.openL
    · by_cases h3 : ((t.cells cur).g.add1).ge ((t.cells n).g) = true
      · left
        simp [processNeighbor, h1, h2, h3]
      · right
        refine ⟨hcl, by simpa using hob, ?_, Or.inl ⟨h2, ?_⟩⟩ <;>
          simp [processNeighbor, writtenCell, h1, h2, h3]
    · right
      refine ⟨hcl, by simpa using hob, ?_, Or.inr ⟨h2, ?_⟩⟩ <;>
        simp [processNeighbor, writtenCell, h1, h2]

/-- Generic preservation of a predicate along a fold. -/
theorem foldl_pres {α β : Type} (f : β → α → β) (P : β → Prop)
    (hf : ∀ t n, P t → P (f t n)) :
    ∀ (l : List α) (t : β), P t → P (l.foldl f t) := by
  intro l
  induction l with
  | nil => intro t ht; exact ht
  | cons c rest ih => intro t ht; exact ih (f t c) (hf t c ht)

theorem sleep_eq (delay : Bool) (s : SState) : sleep delay s = s := by
  cases delay <;> rfl

/-- A non-running state is a fixed point of the loop body. -/
theorem step_of_not_running {delay : Bool} {cols rows : Nat} {goal : Coord}
    {s : SState} (h : s.status ≠ .running) :
    step delay cols rows goal s = s := by
  unfold step
  simp [h]

theorem iterate_step_of_not_running {delay : Bool} {cols rows : Nat}
    {goal : Coord} {s : SState} (h : s.status ≠ .running) (k : Nat) :
    Nat.iterate (step delay cols rows goal) k s = s := by
  induction k with
  | zero => rfl
  | succ k ih =>
      rw [Function.iterate_succ_apply, step_of_not_running h, ih]

/-- The loop body on a running state with a non-empty open list. -/
theorem step_expand (delay : Bool) (cols rows : Nat) (goal : Coord)
    (s : SState) (c0 : Coord) (rest : List Coord)
    (hrun : s.status = .running) (hopen : s.openL = c0 :: rest) :
    step delay cols rows goal s =
      stepB cols rows goal (expandSelect s c0 rest).1 (expandSelect s c0 rest).2 := by
  unfold step
  rw [hopen]
  simp [hrun, sleep_eq]


theorem JVal.lt_irrefl (a : JVal) : a.lt a = false := by
  cases a <;> simp [JVal.lt]

theorem JVal.not_lt_left {a b c : JVal} (h1 : a.lt b = false)
    (h2 : c.lt b = true) : a.lt c = false := by
  cases a <;> cases b <;> cases c <;> simp_all [JVal.lt] <;> omega

/-! ### The minimum-f selection scan -/

/-- Invariant-carrying specification of the linear scan: if b sitting at
index bi is the first minimum of the prefix of L before i and l is the
rest of L from i, the scan returns the first minimum of all of L
together with its index. -/
theorem findMinFrom_go (cells : Coord → Cell) :
    ∀ (l L : List Coord) (b : Coord) (bi i : Nat),
      L[bi]? = some b → l = L.drop i →
      (∀ d ∈ L.take i, ((cells d).f.lt ((cells b).f)) = false) →
      (∀ j, j < bi → ∀ d, L[j]? = some d → ((cells b).f.lt ((cells d).f)) = true) →
      (L[(findMinFrom cells (b, bi) i l).2]? = some (findMinFrom cells (b, bi) i l).1 ∧
       (∀ d ∈ L, ((cells d).f.lt ((cells (findMinFrom cells (b, bi) i l).1).f)) = false) ∧
       (∀ j, j < (findMinFrom cells (b, bi) i l).2 → ∀ d, L[j]? = some d →
          ((cells (findMinFrom cells (b, bi) i l).1).f.lt ((cells d).f)) = true))
  | [], L, b, bi, i, hb, hdrop, hpre, hfirst => by
      simp only [findMinFrom]
      have hlen : L.length ≤ i := by
        have h := congrArg List.length hdrop
        simp only [List.length_nil, List.length_drop] at h
        omega
      refine ⟨hb, ?_, hfirst⟩
      intro d hd
      apply hpre
      rw [List.take_of_length_le hlen]
      exact hd
  | c :: rest, L, b, bi, i, hb, hdrop, hpre, hfirst => by
      have hc : L[i]? = some c := by
        have h0 : (L.drop i)[0]? = some c := by rw [← hdrop]; simp
        rw [List.getElem?_drop] at h0
        simpa using h0
      have hrest : rest = L.drop (i + 1) := by
        have h1 : (c :: rest).drop 1 = (L.drop i).drop 1 := by rw [hdrop]
        simpa [List.drop_drop] using h1
      have hmemtake : ∀ j, j < i → ∀ d, L[j]? = some d → d ∈ L.take i := by
        intro j hj d hd
        have hjt : (L.take i)[j]? = some d := by
          rw [List.getElem?_take]
          simp [hj, hd]
        exact List.getElem?_mem hjt
      simp only [findMinFrom]
      by_cases hlt : ((cells c).f.lt ((cells b).f)) = true
      · rw [if_pos hlt]
        apply findMinFrom_go cells rest L c i (i + 1) hc hrest
        · intro d hd
          rw [List.take_succ, hc] at hd
          simp only [List.mem_append, Option.toList_some, List.mem_singleton] at hd
          rcases hd with hd | rfl
          · exact JVal.not_lt_left (hpre d hd) hlt
          · exact JVal.lt_irrefl _
        · intro j hj d hd
          by_cases hjbi : j < bi
          · exact JVal.lt_trans hlt (hfirst j hjbi d hd)
          · have hdm : d ∈ L.take i := hmemtake j hj d hd
            exact JVal.lt_of_lt_of_not_lt hlt (hpre d hdm)
      · rw [if_neg hlt]
        apply findMinFrom_go cells rest L b bi (i + 1) hb hrest
        · intro d hd
          rw [List.take_succ, hc] at hd
          simp only [List.mem_append, Option.toList_some, List.mem_singleton] at hd
          rcases hd with hd | rfl
          · exact hpre d hd
          · exact eq_false_of_ne_true (by simpa using hlt)
        · exact hfirst

/-- The selection scan as the source calls it, on the whole open list
c0 :: rest starting from index 0: the result sits in the list at the
returned index, no open cell has a strictly smaller f, and every cell at
an earlier index has a strictly larger f (the first minimum in list
order wins). -/
theorem findMinFrom_sel (cells : Coord → Cell) (c0 : Coord) (rest : List Coord) :
    (c0 :: rest)[(findMinFrom cells (c0, 0) 1 rest).2]? =
        some (findMinFrom cells (c0, 0) 1 rest).1 ∧
    (∀ d ∈ c0 :: rest,
        ((cells d).f.lt ((cells (findMinFrom cells (c0, 0) 1 rest).1).f)) = false) ∧
    (∀ j, j < (findMinFrom cells (c0, 0) 1 rest).2 → ∀ d, (c0 :: rest)[j]? = some d →
        ((cells (findMinFrom cells (c0, 0) 1 rest).1).f.lt ((cells d).f)) = true) := by
  apply findMinFrom_go cells rest (c0 :: rest) c0 0 1 (by simp) rfl
  · intro d hd
    simp only [List.take_succ_cons, List.take_zero, List.mem_singleton] at hd
    subst hd
    exact JVal.lt_irrefl _
  · intro j hj
    omega

/-- The selected cell is a member of the open list. -/
theorem findMinFrom_sel_mem (cells : Coord → Cell) (c0 : Coord) (rest : List Coord) :
    (findMinFrom cells (c0, 0) 1 rest).1 ∈ c0 :: rest :=
  List.getElem?_mem (findMinFrom_sel cells c0 rest).1


/-! ### Shape lemmas for the selection phase and the loop body -/

theorem expandSelect_proj (s : SState) (c0 : Coord) (rest : List Coord) :
    (expandSelect s c0 rest).2.cells = s.cells ∧
    (expandSelect s c0 rest).2.status = s.status ∧
    (expandSelect s c0 rest).2.finalPath = s.finalPath ∧
    (expandSelect s c0 rest).2.iterations = s.iterations + 1 ∧
    (expandSelect s c0 rest).2.closedL = s.closedL ++ [(expandSelect s c0 rest).1] ∧
    (expandSelect s c0 rest).2.openL =
      (c0 :: rest).eraseIdx (findMinFrom s.cells (c0, 0) 1 rest).2 ∧
    (expandSelect s c0 rest).1 = (findMinFrom s.cells (c0, 0) 1 rest).1 :=
  ⟨rfl, rfl, rfl, rfl, rfl, rfl, rfl⟩

theorem foldl_pn_closedL (goal cur : Coord) (l : List Coord) (t : SState) :
    (l.foldl (processNeighbor goal cur) t).closedL = t.closedL := by
  induction l generalizing t with
  | nil => rfl
  | cons c rest ih => rw [List.foldl_cons, ih, processNeighbor_closedL]

theorem foldl_pn_status (goal cur : Coord) (l : List Coord) (t : SState) :
    (l.foldl (processNeighbor goal cur) t).status = t.status := by
  induction l generalizing t with
  | nil => rfl
  | cons c rest ih => rw [List.foldl_cons, ih, processNeighbor_status]

theorem foldl_pn_iterations (goal cur : Coord) (l : List Coord) (t : SState) :
    (l.foldl (processNeighbor goal cur) t).iterations = t.iterations := by
  induction l generalizing t with
  | nil => rfl
  | cons c rest ih => rw [List.foldl_cons, ih, processNeighbor_iterations]

theorem foldl_pn_finalPath (goal cur : Coord) (l : List Coord) (t : SState) :
    (l.foldl (processNeighbor goal cur) t).finalPath = t.finalPath := by
  induction l generalizing t with
  | nil => rfl
  | cons c rest ih => rw [List.foldl_cons, ih, processNeighbor_finalPath]

theorem stepB_closedL (cols rows : Nat) (goal cur : Coord) (t : SState) :
    (stepB cols rows goal cur t).closedL = t.closedL := by
  by_cases hg : cur = goal
  · simp [stepB, hg]
  · by_cases hcap :
      5000 < ((neighbors cols rows cur).foldl (processNeighbor goal cur) t).iterations
    · simp [stepB, hg, hcap, foldl_pn_closedL]
    · simp [stepB, hg, hcap, foldl_pn_closedL]

theorem stepB_iterations (cols rows : Nat) (goal cur : Coord) (t : SState) :
    (stepB cols rows goal cur t).iterations = t.iterations := by
  by_cases hg : cur = goal
  · simp [stepB, hg]
  · by_cases hcap : 5000 < t.iterations
    · simp [stepB, hg, hcap, foldl_pn_iterations]
    · simp [stepB, hg, hcap, foldl_pn_iterations]

/-- The status after the post-selection phase: success on the goal test,
failure at the iteration cap, otherwise unchanged. -/
theorem stepB_status_cases (cols rows : Nat) (goal cur : Coord) (t : SState) :
    (stepB cols rows goal cur t).status = .succeeded ∨
    (stepB cols rows goal cur t).status = .failed ∨
    (stepB cols rows goal cur t).status = t.status := by
  by_cases hg : cur = goal
  · exact Or.inl (by simp [stepB, hg])
  · by_cases hcap :
      5000 < ((neighbors cols rows cur).foldl (processNeighbor goal cur) t).iterations
    · exact Or.inr (Or.inl (by simp [stepB, hg, hcap]))
    · exact Or.inr (Or.inr (by simp [stepB, hg, hcap, foldl_pn_status]))

theorem stepB_not_running {cols rows : Nat} {goal cur : Coord} {t : SState}
    (h : t.status ≠ .running) :
    (stepB cols rows goal cur t).status ≠ .running := by
  rcases stepB_status_cases cols rows goal cur t with h1 | h1 | h1 <;> rw [h1] <;>
    simp_all

/-- The expanded cell of one running iteration: the closed list grows by
exactly the selected cell. -/
theorem step_closedL (delay : Bool) (cols rows : Nat) (goal : Coord)
    (s : SState) (c0 : Coord) (rest : List Coord)
    (hrun : s.status = .running) (hopen : s.openL = c0 :: rest) :
    (step delay cols rows goal s).closedL =
      s.closedL ++ [(findMinFrom s.cells (c0, 0) 1 rest).1] := by
  rw [step_expand delay cols rows goal s c0 rest hrun hopen, stepB_closedL]
  rfl

theorem step_iterations (delay : Bool) (cols rows : Nat) (goal : Coord)
    (s : SState) (c0 : Coord) (rest : List Coord)
    (hrun : s.status = .running) (hopen : s.openL = c0 :: rest) :
    (step delay cols rows goal s).iterations = s.iterations + 1 := by
  rw [step_expand delay cols rows goal s c0 rest hrun hopen, stepB_iterations]
  rfl


/-- Claim C2: at each expansion step on a running state, the cell moved
from the open list to the closed list is the result of the minimum-f
scan over the open list: it sits in the open list at the returned
position, no open cell has a strictly smaller f, and every open cell at
an earlier position has a strictly larger f. Cells enter the open list
by appending and leave it by splicing, both of which preserve the
relative order of the remaining cells, so list order is insertion order
and the selected cell is the first minimum encountered in insertion
order. -/
theorem claim_C2 (delay : Bool) (cols rows : Nat) (goal : Coord) (s : SState)
    (c0 : Coord) (rest : List Coord)
    (hrun : s.status = .running) (hopen : s.openL = c0 :: rest) :
    ∃ i : Nat, s.openL[i]? = some (findMinFrom s.cells (c0, 0) 1 rest).1 ∧
      (step delay cols rows goal s).closedL =
        s.closedL ++ [(findMinFrom s.cells (c0, 0) 1 rest).1] ∧
      (∀ d ∈ s.openL,
        ((s.cells d).f.lt ((s.cells (findMinFrom s.cells (c0, 0) 1 rest).1).f)) = false) ∧
      (∀ j : Nat, j < i → ∀ d, s.openL[j]? = some d →
        ((s.cells (findMinFrom s.cells (c0, 0) 1 rest).1).f.lt ((s.cells d).f)) = true) := by
  obtain ⟨h1, h2, h3⟩ := findMinFrom_sel s.cells c0 rest
  refine ⟨(findMinFrom s.cells (c0, 0) 1 rest).2, ?_, ?_, ?_, ?_⟩
  · rw [hopen]
    exact h1
  · exact step_closedL delay cols rows goal s c0 rest hrun hopen
  · rw [hopen]
    exact h2
  · intro j hj d hd
    refine h3 j hj d ?_
    rw [hopen] at hd
    exact hd

/-- Witness for claim C2 on a freshly started 2 × 1 search. -/
theorem claim_C2_witness :
    ∃ i : Nat, (initState freeGrid ⟨0, 0⟩ ⟨1, 0⟩).openL[i]? =
        some (findMinFrom (initState freeGrid ⟨0, 0⟩ ⟨1, 0⟩).cells (⟨0, 0⟩, 0) 1 []).1 ∧
      (step true 2 1 ⟨1, 0⟩ (initState freeGrid ⟨0, 0⟩ ⟨1, 0⟩)).closedL =
        (initState freeGrid ⟨0, 0⟩ ⟨1, 0⟩).closedL ++
          [(findMinFrom (initState freeGrid ⟨0, 0⟩ ⟨1, 0⟩).cells (⟨0, 0⟩, 0) 1 []).1] ∧
      (∀ d ∈ (initState freeGrid ⟨0, 0⟩ ⟨1, 0⟩).openL,
        (((initState freeGrid ⟨0, 0⟩ ⟨1, 0⟩).cells d).f.lt
          (((initState freeGrid ⟨0, 0⟩ ⟨1, 0⟩).cells
            (findMinFrom (initState freeGrid ⟨0, 0⟩ ⟨1, 0⟩).cells (⟨0, 0⟩, 0) 1 []).1).f)) =
          false) ∧
      (∀ j : Nat, j < i → ∀ d, (initState freeGrid ⟨0, 0⟩ ⟨1, 0⟩).openL[j]? = some d →
        (((initState freeGrid ⟨0, 0⟩ ⟨1, 0⟩).cells
            (findMinFrom (initState freeGrid ⟨0, 0⟩ ⟨1, 0⟩).cells (⟨0, 0⟩, 0) 1 []).1).f.lt
          (((initState freeGrid ⟨0, 0⟩ ⟨1, 0⟩).cells d).f)) = true) :=
  claim_C2 true 2 1 ⟨1, 0⟩ (initState freeGrid ⟨0, 0⟩ ⟨1, 0⟩) ⟨0, 0⟩ [] rfl rfl


/-! ### Preservation of list sanity, and freezing of closed cells -/

theorem nodup_not_mem_eraseIdx {l : List Coord} {k : Nat} {a : Coord}
    (hnd : l.Nodup) (hk : l[k]? = some a) : a ∉ l.eraseIdx k := by
  intro hmem
  obtain ⟨i, hik, hi⟩ := List.mem_eraseIdx_iff_getElem?.mp hmem
  obtain ⟨hilen, hieq⟩ := List.getElem?_eq_some_iff.mp hi
  obtain ⟨hklen, hkeq⟩ := List.getElem?_eq_some_iff.mp hk
  exact hik (hnd.getElem_inj_iff.mp (by rw [hieq, hkeq]))

theorem processNeighbor_slim {goal cur : Coord} {t : SState}
    (h : SlimInv t) (n : Coord) : SlimInv (processNeighbor goal cur t n) := by
  rcases processNeighbor_eq_or goal cur t n with heq | ⟨hncl, hob, hcells, hop⟩
  · rw [heq]
    exact h
  · rcases hop with ⟨hmem, hopeq⟩ | ⟨hmem, hopeq⟩
    · refine ⟨?_, ?_, ?_⟩
      · rw [hopeq]
        exact h.openNodup
      · rw [processNeighbor_closedL]
        exact h.closedNodup
      · intro c hc
        rw [processNeighbor_closedL]
        rw [hopeq] at hc
        exact h.disj c hc
    · refine ⟨?_, ?_, ?_⟩
      · rw [hopeq, List.nodup_append]
        exact ⟨h.openNodup, List.nodup_singleton n, by
          intro x hx
          simp only [List.mem_singleton]
          rintro rfl
          exact hmem hx⟩
      · rw [processNeighbor_closedL]
        exact h.closedNodup
      · intro c hc
        rw [processNeighbor_closedL]
        rw [hopeq, List.mem_append, List.mem_singleton] at hc
        rcases hc with hc | rfl
        · exact h.disj c hc
        · exact hncl

theorem foldl_pn_slim {goal cur : Coord} {l : List Coord} {t : SState}
    (h : SlimInv t) : SlimInv (l.foldl (processNeighbor goal cur) t) :=
  foldl_pres (processNeighbor goal cur) SlimInv
    (fun t n ht => processNeighbor_slim ht n) l t h

theorem stepB_listFields (cols rows : Nat) (goal cur : Coord) (t : SState) :
    ((stepB cols rows goal cur t).openL = t.openL ∧
     (stepB cols rows goal cur t).cells = t.cells) ∨
    ((stepB cols rows goal cur t).openL =
        ((neighbors cols rows cur).foldl (processNeighbor goal cur) t).openL ∧
     (stepB cols rows goal cur t).cells =
        ((neighbors cols rows cur).foldl (processNeighbor goal cur) t).cells) := by
  by_cases hg : cur = goal
  · left
    constructor <;> simp [stepB, hg]
  · right
    by_cases hcap :
        5000 < ((neighbors cols rows cur).foldl (processNeighbor goal cur) t).iterations
    · constructor <;> simp [stepB, hg, hcap]
    · constructor <;> simp [stepB, hg, hcap]

theorem stepB_slim {cols rows : Nat} {goal cur : Coord} {t : SState}
    (h : SlimInv t) : SlimInv (stepB cols rows goal cur t) := by
  have hcl := stepB_closedL cols rows goal cur t
  rcases stepB_listFields cols rows goal cur t with ⟨hop, -⟩ | ⟨hop, -⟩
  · exact ⟨hop ▸ h.openNodup, hcl ▸ h.closedNodup, fun c hc => by
      rw [hcl]
      exact h.disj c (hop ▸ hc)⟩
  · have hf : SlimInv ((neighbors cols rows cur).foldl (processNeighbor goal cur) t) :=
      foldl_pn_slim h
    refine ⟨hop ▸ hf.openNodup, hcl ▸ h.closedNodup, fun c hc => ?_⟩
    rw [hcl, ← foldl_pn_closedL goal cur (neighbors cols rows cur) t]
    exact hf.disj c (hop ▸ hc)

theorem expandSelect_slim {s : SState} {c0 : Coord} {rest : List Coord}
    (h : SlimInv s) (hopen : s.openL = c0 :: rest) :
    SlimInv (expandSelect s c0 rest).2 := by
  obtain ⟨hsel, -, -⟩ := findMinFrom_sel s.cells c0 rest
  have hselmem : (findMinFrom s.cells (c0, 0) 1 rest).1 ∈ s.openL := by
    rw [hopen]
    exact findMinFrom_sel_mem s.cells c0 rest
  have hnd : (c0 :: rest).Nodup := hopen ▸ h.openNodup
  have hnotmem :
      (findMinFrom s.cells (c0, 0) 1 rest).1 ∉
        (c0 :: rest).eraseIdx (findMinFrom s.cells (c0, 0) 1 rest).2 :=
    nodup_not_mem_eraseIdx hnd hsel
  refine ⟨?_, ?_, ?_⟩
  · exact (List.eraseIdx_sublist _ _).nodup hnd
  · show (s.closedL ++ [(findMinFrom s.cells (c0, 0) 1 rest).1]).Nodup
    rw [List.nodup_append]
    refine ⟨h.closedNodup, List.nodup_singleton _, ?_⟩
    intro x hx
    simp only [List.mem_singleton]
    rintro rfl
    exact h.disj _ hselmem hx
  · intro c hc
    show c ∉ s.closedL ++ [(findMinFrom s.cells (c0, 0) 1 rest).1]
    have hcmem : c ∈ s.openL := by
      rw [hopen]
      exact (List.eraseIdx_sublist _ _).mem hc
    rw [List.mem_append, List.mem_singleton]
    rintro (hbad | rfl)
    · exact h.disj c hcmem hbad
    · exact hnotmem hc

theorem step_slim {delay : Bool} {cols rows : Nat} {goal : Coord} {s : SState}
    (h : SlimInv s) : SlimInv (step delay cols rows goal s) := by
  by_cases hrun : s.status = .running
  · cases hop : s.openL with
    | nil =>
        have hs : step delay cols rows goal s = { s with status := .failed } := by
          unfold step
          rw [hop]
          simp [hrun]
        rw [hs]
        exact ⟨h.openNodup, h.closedNodup, h.disj⟩
    | cons c0 rest =>
        rw [step_expand delay cols rows goal s c0 rest hrun hop]
        exact stepB_slim (expandSelect_slim h hop)
  · rw [step_of_not_running hrun]
    exact h

theorem initState_slim (grid : Coord → Cell) (startC goalC : Coord) :
    SlimInv (initState grid startC goalC) :=
  ⟨List.nodup_singleton _, List.nodup_nil, by intro c hc; simp [initState]⟩

theorem runN_slim (delay : Bool) (cols rows : Nat) (grid : Coord → Cell)
    (startC goalC : Coord) (n : Nat) :
    SlimInv (runN delay cols rows grid startC goalC n) := by
  induction n with
  | zero => exact initState_slim grid startC goalC
  | succ n ih =>
      have hs : runN delay cols rows grid startC goalC (n + 1) =
          step delay cols rows goalC (runN delay cols rows grid startC goalC n) :=
        Function.iterate_succ_apply' _ n _
      rw [hs]
      exact step_slim ih

theorem foldl_pn_cells_closed {goal cur : Coord} {l : List Coord} {t : SState}
    {c : Coord} (hc : c ∈ t.closedL) :
    (l.foldl (processNeighbor goal cur) t).cells c = t.cells c := by
  induction l generalizing t with
  | nil => rfl
  | cons n rest ih =>
      rw [List.foldl_cons]
      have h1 : (processNeighbor goal cur t n).cells c = t.cells c := by
        rcases processNeighbor_eq_or goal cur t n with heq | ⟨hncl, -, hcells, -⟩
        · rw [heq]
        · rw [hcells]
          unfold updateCell
          rw [if_neg]
          rintro rfl
          exact hncl hc
      rw [ih (by rw [processNeighbor_closedL]; exact hc), h1]

theorem foldl_pn_openL_mem {goal cur : Coord} {l : List Coord} {t : SState}
    {d : Coord} (hd : d ∈ (l.foldl (processNeighbor goal cur) t).openL) :
    d ∈ t.openL ∨ d ∉ t.closedL := by
  induction l generalizing t with
  | nil => exact Or.inl hd
  | cons n rest ih =>
      rw [List.foldl_cons] at hd
      rcases ih hd with h1 | h1
      · rcases processNeighbor_eq_or goal cur t n with heq | ⟨hncl, -, -, hop⟩
        · rw [heq] at h1
          exact Or.inl h1
        · rcases hop with ⟨-, hopeq⟩ | ⟨-, hopeq⟩
          · rw [hopeq] at h1
            exact Or.inl h1
          · rw [hopeq, List.mem_append, List.mem_singleton] at h1
            rcases h1 with h1 | rfl
            · exact Or.inl h1
            · exact Or.inr hncl
      · rw [processNeighbor_closedL] at h1
        exact Or.inr h1

/-- A closed cell stays closed with frozen contents across one loop
iteration, and (given list sanity) is never back in the open list. -/
theorem step_closed_frozen (delay : Bool) (cols rows : Nat) (goal : Coord)
    {s : SState} {c : Coord} (hslim : SlimInv s) (hc : c ∈ s.closedL) :
    c ∈ (step delay cols rows goal s).closedL ∧
    c ∉ (step delay cols rows goal s).openL ∧
    (step delay cols rows goal s).cells c = s.cells c := by
  by_cases hrun : s.status = .running
  · cases hop : s.openL with
    | nil =>
        have hs : step delay cols rows goal s = { s with status := .failed } := by
          unfold step
          rw [hop]
          simp [hrun]
        rw [hs]
        refine ⟨hc, ?_, rfl⟩
        show c ∉ s.openL
        intro hbad
        exact hslim.disj c hbad hc
    | cons c0 rest =>
        rw [step_expand delay cols rows goal s c0 rest hrun hop]
        have hc1 : c ∈ (expandSelect s c0 rest).2.closedL := by
          show c ∈ s.closedL ++ [(findMinFrom s.cells (c0, 0) 1 rest).1]
          exact List.mem_append.mpr (Or.inl hc)
        have hslim1 : SlimInv (expandSelect s c0 rest).2 := expandSelect_slim hslim hop
        have hcells1 : (expandSelect s c0 rest).2.cells = s.cells := rfl
        refine ⟨?_, ?_, ?_⟩
        · rw [stepB_closedL]
          exact hc1
        · rcases stepB_listFields cols rows goal (expandSelect s c0 rest).1
              (expandSelect s c0 rest).2 with ⟨hopeq, -⟩ | ⟨hopeq, -⟩
          · rw [hopeq]
            intro hbad
            exact hslim1.disj c hbad hc1
          · rw [hopeq]
            intro hbad
            rcases foldl_pn_openL_mem hbad with hbad2 | hbad2
            · exact hslim1.disj c hbad2 hc1
            · exact hbad2 hc1
        · rcases stepB_listFields cols rows goal (expandSelect s c0 rest).1
              (expandSelect s c0 rest).2 with ⟨-, hceq⟩ | ⟨-, hceq⟩
          · rw [hceq, hcells1]
          · rw [hceq, foldl_pn_cells_closed hc1, hcells1]
  · rw [step_of_not_running hrun]
    refine ⟨hc, ?_, rfl⟩
    intro hbad
    exact hslim.disj c hbad hc

/-- Claim C4: in every state reachable during a single run the open and
closed lists are disjoint, the closed list has no duplicates (a cell
enters it at most once), and once a cell is closed it stays closed for
the rest of the run, is never re-added to the open list, and its cell
record — in particular its g value — never changes again (so g never
decreases). -/
theorem claim_C4 (delay : Bool) (cols rows : Nat) (grid : Coord → Cell)
    (startC goalC : Coord) (n m : Nat) :
    (∀ c ∈ (runN delay cols rows grid startC goalC n).openL,
        c ∉ (runN delay cols rows grid startC goalC n).closedL) ∧
    (runN delay cols rows grid startC goalC n).closedL.Nodup ∧
    (∀ c ∈ (runN delay cols rows grid startC goalC n).closedL,
        c ∈ (runN delay cols rows grid startC goalC (n + m)).closedL ∧
        c ∉ (runN delay cols rows grid startC goalC (n + m)).openL ∧
        (runN delay cols rows grid startC goalC (n + m)).cells c =
          (runN delay cols rows grid startC goalC n).cells c) := by
  refine ⟨(runN_slim delay cols rows grid startC goalC n).disj,
          (runN_slim delay cols rows grid startC goalC n).closedNodup, ?_⟩
  intro c hc
  induction m with
  | zero =>
      refine ⟨hc, ?_, rfl⟩
      intro hbad
      exact (runN_slim delay cols rows grid startC goalC n).disj c hbad hc
  | succ m ih =>
      obtain ⟨ih1, ih2, ih3⟩ := ih
      have hs : runN delay cols rows grid startC goalC (n + (m + 1)) =
          step delay cols rows goalC (runN delay cols rows grid startC goalC (n + m)) := by
        show Nat.iterate _ (n + (m + 1)) _ = _
        rw [show n + (m + 1) = (n + m) + 1 by omega]
        exact Function.iterate_succ_apply' _ _ _
      have hfro := step_closed_frozen delay cols rows goalC
        (runN_slim delay cols rows grid startC goalC (n + m)) ih1
      rw [hs]
      exact ⟨hfro.1, hfro.2.1, by rw [hfro.2.2, ih3]⟩

/-- Witness for claim C4 on a freshly started 2 × 1 search, one and two
iterations in. -/
theorem claim_C4_witness :
    (⟨0, 0⟩ : Coord) ∈ (runN true 2 1 freeGrid ⟨0, 0⟩ ⟨1, 0⟩ 1).closedL ∧
    (⟨0, 0⟩ : Coord) ∈ (runN true 2 1 freeGrid ⟨0, 0⟩ ⟨1, 0⟩ 2).closedL ∧
    (⟨0, 0⟩ : Coord) ∉ (runN true 2 1 freeGrid ⟨0, 0⟩ ⟨1, 0⟩ 2).openL ∧
    (runN true 2 1 freeGrid ⟨0, 0⟩ ⟨1, 0⟩ 2).cells ⟨0, 0⟩ =
      (runN true 2 1 freeGrid ⟨0, 0⟩ ⟨1, 0⟩ 1).cells ⟨0, 0⟩ := by
  have h := (claim_C4 true 2 1 freeGrid ⟨0, 0⟩ ⟨1, 0⟩ 1 1).2.2 ⟨0, 0⟩ (by decide)
  exact ⟨by decide, h.1, h.2.1, h.2.2⟩


/-- Claim C3: the neighbor-evaluation body (applied by each expansion to
every neighbor of the current cell in turn) leaves an obstacle or closed
neighbor untouched; appends a not-yet-open neighbor to the open list and
writes parent = current, g = current.g + 1, h = the Manhattan distance
to the goal and f = g + h; rewrites those fields of an already open
neighbor in place exactly when current.g + 1 < neighbor.g; and otherwise
leaves it untouched. -/
theorem claim_C3 (goal cur : Coord) (s : SState) (n : Coord) :
    (((s.cells n).obstacle = true ∨ n ∈ s.closedL) →
        processNeighbor goal cur s n = s) ∧
    ((s.cells n).obstacle = false → n ∉ s.closedL → n ∉ s.openL →
        processNeighbor goal cur s n =
          { s with openL := s.openL ++ [n],
                   cells := updateCell s.cells n (writtenCell goal cur s.cells n) }) ∧
    ((s.cells n).obstacle = false → n ∉ s.closedL → n ∈ s.openL →
        ((s.cells cur).g.add1).lt ((s.cells n).g) = true →
        processNeighbor goal cur s n =
          { s with cells := updateCell s.cells n (writtenCell goal cur s.cells n) }) ∧
    ((s.cells n).obstacle = false → n ∉ s.closedL → n ∈ s.openL →
        ((s.cells cur).g.add1).lt ((s.cells n).g) = false →
        processNeighbor goal cur s n = s) := by
  refine ⟨?_, ?_, ?_, ?_⟩
  · intro h
    simp [processNeighbor, h]
  · intro hob hcl hop
    have hcond : ¬((s.cells n).obstacle = true ∨ n ∈ s.closedL) := by
      simp [hob, hcl]
    simp [processNeighbor, hcond, hop, writtenCell]
  · intro hob hcl hop hlt
    have hcond : ¬((s.cells n).obstacle = true ∨ n ∈ s.closedL) := by
      simp [hob, hcl]
    have hge : ((s.cells cur).g.add1).ge ((s.cells n).g) = false := by
      rw [JVal.ge_eq_not_lt, hlt]
      rfl
    simp [processNeighbor, hcond, hop, hge, writtenCell]
  · intro hob hcl hop hlt
    have hcond : ¬((s.cells n).obstacle = true ∨ n ∈ s.closedL) := by
      simp [hob, hcl]
    have hge : ((s.cells cur).g.add1).ge ((s.cells n).g) = true := by
      rw [JVal.ge_eq_not_lt, hlt]
      rfl
    simp [processNeighbor, hcond, hop, hge]

/-- Witness for claim C3: each of the four neighbor-evaluation cases at
a concrete state. -/
theorem claim_C3_witness :
    processNeighbor ⟨9, 9⟩ ⟨0, 0⟩ stateC3 ⟨2, 0⟩ = stateC3 ∧
    processNeighbor ⟨9, 9⟩ ⟨0, 0⟩ stateC3 ⟨3, 0⟩ = stateC3 ∧
    processNeighbor ⟨9, 9⟩ ⟨0, 0⟩ stateC3 ⟨4, 0⟩ =
      { stateC3 with openL := stateC3.openL ++ [⟨4, 0⟩],
                     cells := updateCell stateC3.cells ⟨4, 0⟩
                       (writtenCell ⟨9, 9⟩ ⟨0, 0⟩ stateC3.cells ⟨4, 0⟩) } ∧
    processNeighbor ⟨9, 9⟩ ⟨0, 0⟩ stateC3 ⟨1, 0⟩ =
      { stateC3 with cells := updateCell stateC3.cells ⟨1, 0⟩
                       (writtenCell ⟨9, 9⟩ ⟨0, 0⟩ stateC3.cells ⟨1, 0⟩) } ∧
    processNeighbor ⟨9, 9⟩ ⟨5, 0⟩ stateC3 ⟨1, 0⟩ = stateC3 :=
  ⟨(claim_C3 ⟨9, 9⟩ ⟨0, 0⟩ stateC3 ⟨2, 0⟩).1 (by decide),
   (claim_C3 ⟨9, 9⟩ ⟨0, 0⟩ stateC3 ⟨3, 0⟩).1 (by decide),
   (claim_C3 ⟨9, 9⟩ ⟨0, 0⟩ stateC3 ⟨4, 0⟩).2.1 (by decide) (by decide) (by decide),
   (claim_C3 ⟨9, 9⟩ ⟨0, 0⟩ stateC3 ⟨1, 0⟩).2.2.1 (by decide) (by decide) (by decide)
     (by decide),
   (claim_C3 ⟨9, 9⟩ ⟨5, 0⟩ stateC3 ⟨1, 0⟩).2.2.2 (by decide) (by decide) (by decide)
     (by decide)⟩

/-! ### The iteration counter and the cap -/

theorem stepB_running_iter {cols rows : Nat} {goal cur : Coord} {t : SState} :
    (stepB cols rows goal cur t).status = .running →
    (stepB cols rows goal cur t).iterations ≤ 5000 := by
  by_cases hg : cur = goal
  · intro h
    exact absurd h (by simp [stepB, hg])
  · by_cases hcap :
        5000 < ((neighbors cols rows cur).foldl (processNeighbor goal cur) t).iterations
    · intro h
      exact absurd h (by simp [stepB, hg, hcap])
    · intro h
      have he : stepB cols rows goal cur t =
          (neighbors cols rows cur).foldl (processNeighbor goal cur) t := by
        simp [stepB, hg, hcap]
      rw [he]
      omega

/-- A running reachable state has not yet passed the cap. -/
theorem runN_running_iter (delay : Bool) (cols rows : Nat) (grid : Coord → Cell)
    (startC goalC : Coord) (n : Nat) :
    (runN delay cols rows grid startC goalC n).status = .running →
    (runN delay cols rows grid startC goalC n).iterations ≤ 5000 := by
  induction n with
  | zero =>
      intro h
      show (initState grid startC goalC).iterations ≤ 5000
      simp [initState]
  | succ n ih =>
      have hs : runN delay cols rows grid startC goalC (n + 1) =
          step delay cols rows goalC (runN delay cols rows grid startC goalC n) :=
        Function.iterate_succ_apply' _ n _
      rw [hs]
      by_cases hrun : (runN delay cols rows grid startC goalC n).status = .running
      · cases hop : (runN delay cols rows grid startC goalC n).openL with
        | nil =>
            have he : step delay cols rows goalC (runN delay cols rows grid startC goalC n) =
                { runN delay cols rows grid startC goalC n with status := .failed } := by
              unfold step
              rw [hop]
              simp [hrun, hop]
            rw [he]
            intro h
            exact absurd h (by simp)
        | cons c0 rest =>
            rw [step_expand delay cols rows goalC _ c0 rest hrun hop]
            exact stepB_running_iter
      · rw [step_of_not_running hrun]
        intro h
        exact absurd h hrun

/-- A reachable running state has performed exactly as many expansions
as loop iterations. -/
theorem runN_running_iter_eq (delay : Bool) (cols rows : Nat) (grid : Coord → Cell)
    (startC goalC : Coord) (n : Nat) :
    (runN delay cols rows grid startC goalC n).status = .running →
    (runN delay cols rows grid startC goalC n).iterations = n := by
  induction n with
  | zero =>
      intro h
      rfl
  | succ n ih =>
      have hs : runN delay cols rows grid startC goalC (n + 1) =
          step delay cols rows goalC (runN delay cols rows grid startC goalC n) :=
        Function.iterate_succ_apply' _ n _
      rw [hs]
      by_cases hrun : (runN delay cols rows grid startC goalC n).status = .running
      · cases hop : (runN delay cols rows grid startC goalC n).openL with
        | nil =>
            have he : step delay cols rows goalC (runN delay cols rows grid startC goalC n) =
                { runN delay cols rows grid startC goalC n with status := .failed } := by
              unfold step
              rw [hop]
              simp [hrun, hop]
            rw [he]
            intro h
            exact absurd h (by simp)
        | cons c0 rest =>
            intro h
            rw [step_iterations delay cols rows goalC _ c0 rest hrun hop, ih hrun]
      · rw [step_of_not_running hrun]
        intro h
        exact absurd h hrun

/-- Claim C5: the engine increments its iteration counter exactly once
per expansion; when the incremented counter exceeds the cap of 5000 at
the end-of-iteration test (the goal test earlier in the same iteration
takes precedence, exactly as in the loop body and in the specification's
ordering of the step contract) the run is forced into the failed state
whatever the open list holds; and consequently a run never performs more
than 5001 expansions and is terminal from iteration 5001 on. -/
theorem claim_C5 (delay : Bool) (cols rows : Nat) (grid : Coord → Cell)
    (startC goalC : Coord) :
    (∀ s : SState, s.status = .running → ∀ (c0 : Coord) (rest : List Coord),
        s.openL = c0 :: rest →
        (step delay cols rows goalC s).iterations = s.iterations + 1) ∧
    (∀ s : SState, s.status = .running → ∀ (c0 : Coord) (rest : List Coord),
        s.openL = c0 :: rest → 5000 ≤ s.iterations →
        (findMinFrom s.cells (c0, 0) 1 rest).1 ≠ goalC →
        (step delay cols rows goalC s).status = .failed) ∧
    (∀ n : Nat, (runN delay cols rows grid startC goalC n).iterations ≤ 5001) ∧
    (∀ n : Nat, 5001 ≤ n →
        (runN delay cols rows grid startC goalC n).status ≠ .running) := by
  refine ⟨?_, ?_, ?_, ?_⟩
  · intro s hrun c0 rest hop
    exact step_iterations delay cols rows goalC s c0 rest hrun hop
  · intro s hrun c0 rest hop hiter hne
    rw [step_expand delay cols rows goalC s c0 rest hrun hop]
    have hcap : 5000 <
        ((neighbors cols rows (expandSelect s c0 rest).1).foldl
          (processNeighbor goalC (expandSelect s c0 rest).1)
          (expandSelect s c0 rest).2).iterations := by
      rw [foldl_pn_iterations]
      show 5000 < s.iterations + 1
      omega
    have hne2 : (expandSelect s c0 rest).1 ≠ goalC := hne
    simp [stepB, hne2, hcap]
  · intro n
    induction n with
    | zero => show (initState grid startC goalC).iterations ≤ 5001
              simp [initState]
    | succ n ih =>
        have hs : runN delay cols rows grid startC goalC (n + 1) =
            step delay cols rows goalC (runN delay cols rows grid startC goalC n) :=
          Function.iterate_succ_apply' _ n _
        rw [hs]
        by_cases hrun : (runN delay cols rows grid startC goalC n).status = .running
        · have hle := runN_running_iter delay cols rows grid startC goalC n hrun
          cases hop : (runN delay cols rows grid startC goalC n).openL with
          | nil =>
              have he : step delay cols rows goalC
                    (runN delay cols rows grid startC goalC n) =
                  { runN delay cols rows grid startC goalC n with status := .failed } := by
                unfold step
                rw [hop]
                simp [hrun, hop]
              rw [he]
              show (runN delay cols rows grid startC goalC n).iterations ≤ 5001
              omega
          | cons c0 rest =>
              rw [step_iterations delay cols rows goalC _ c0 rest hrun hop]
              omega
        · rw [step_of_not_running hrun]
          exact ih
  · intro n hn hrun
    have h1 := runN_running_iter delay cols rows grid startC goalC n hrun
    have h2 := runN_running_iter_eq delay cols rows grid startC goalC n hrun
    omega

/-- Witness for claim C5: a state at the cap fails on the next step even
though its open list stays non-empty, the counter advances by one on a
fresh run, and runs are terminal at iteration 5001. -/
theorem claim_C5_witness :
    (step true 9 9 ⟨9, 9⟩ stateC5).status = .failed ∧
    (step true 9 9 ⟨9, 9⟩ stateC5).openL ≠ [] ∧
    (step true 2 1 ⟨1, 0⟩ (initState freeGrid ⟨0, 0⟩ ⟨1, 0⟩)).iterations =
      (initState freeGrid ⟨0, 0⟩ ⟨1, 0⟩).iterations + 1 ∧
    (runN true 2 1 freeGrid ⟨0, 0⟩ ⟨1, 0⟩ 5001).status ≠ .running := by
  refine ⟨?_, ?_, ?_, ?_⟩
  · exact (claim_C5 true 9 9 freeGrid ⟨0, 0⟩ ⟨9, 9⟩).2.1 stateC5 rfl ⟨0, 0⟩ [⟨3, 0⟩]
      rfl (by decide) (by decide)
  · decide
  · exact (claim_C5 true 2 1 freeGrid ⟨0, 0⟩ ⟨1, 0⟩).1 (initState freeGrid ⟨0, 0⟩ ⟨1, 0⟩)
      rfl ⟨0, 0⟩ [] rfl
  · exact (claim_C5 true 2 1 freeGrid ⟨0, 0⟩ ⟨1, 0⟩).2.2.2 5001 (by omega)


theorem chainW_none (cells : Coord → Cell) (fuel : Nat) :
    chainW cells fuel none = [] := by
  cases fuel <;> rfl

/-! ### The delay is pure scheduling -/

theorem step_delay_eq (d1 d2 : Bool) (cols rows : Nat) (goal : Coord) (s : SState) :
    step d1 cols rows goal s = step d2 cols rows goal s := by
  by_cases hrun : s.status = .running
  · cases hop : s.openL with
    | nil =>
        unfold step
        rw [hop]
    | cons c0 rest =>
        rw [step_expand d1 cols rows goal s c0 rest hrun hop,
            step_expand d2 cols rows goal s c0 rest hrun hop]
  · rw [step_of_not_running hrun, step_of_not_running hrun]

/-- Claim C8: the step delay is pure scheduling — for every grid
configuration, runs that differ only in whether the delay is enabled
pass through identical search states at every iteration and produce the
identical final state. In the source, sleep resolves a promise either
immediately or after a timeout; in both cases the resumed loop body
reads and writes exactly the same program state, which the embedded
sleep reflects by returning its state unchanged in both branches. -/
theorem claim_C8 (d1 d2 : Bool) (cols rows : Nat) (grid : Coord → Cell)
    (startC goalC : Coord) :
    (∀ n : Nat, runN d1 cols rows grid startC goalC n =
        runN d2 cols rows grid startC goalC n) ∧
    runToCompletion d1 cols rows grid startC goalC =
      runToCompletion d2 cols rows grid startC goalC := by
  have hall : ∀ n : Nat, runN d1 cols rows grid startC goalC n =
      runN d2 cols rows grid startC goalC n := by
    intro n
    induction n with
    | zero => rfl
    | succ n ih =>
        have h1 : runN d1 cols rows grid startC goalC (n + 1) =
            step d1 cols rows goalC (runN d1 cols rows grid startC goalC n) :=
          Function.iterate_succ_apply' _ n _
        have h2 : runN d2 cols rows grid startC goalC (n + 1) =
            step d2 cols rows goalC (runN d2 cols rows grid startC goalC n) :=
          Function.iterate_succ_apply' _ n _
        rw [h1, h2, ih, step_delay_eq]
  exact ⟨hall, hall 5002⟩

/-! ### Cancellation by a mid-run grid edit -/

/-- Claim C7 (amended): an in-range grid edit arriving while the engine
is running — necessarily at the await suspension inside the current
iteration — cancels the run and resets the search state (open, closed
and path lists emptied, every cell back to g = ∞, h = 0, f = ∞, parent
= none); the remainder of the in-flight iteration then still executes
against the cleared state (the loop body resumes with its local current
cell), and after that iteration finishes no further loop iteration has
any effect until a new start. -/
theorem claim_C7 (delay : Bool) (cols rows : Nat) (goal : Coord)
    (dm : DrawMode) (am : ActionMode) (x y : Nat) (startC goalC : Coord)
    (s : SState) (c0 : Coord) (rest : List Coord)
    (hrun : s.status = .running) (hopen : s.openL = c0 :: rest)
    (hx : x < cols) (hy : y < rows) :
    ((handleMouseAction cols rows dm am x y startC goalC
        (expandSelect s c0 rest).2).2.2.status = .cancelled ∧
     (handleMouseAction cols rows dm am x y startC goalC
        (expandSelect s c0 rest).2).2.2.openL = [] ∧
     (handleMouseAction cols rows dm am x y startC goalC
        (expandSelect s c0 rest).2).2.2.closedL = [] ∧
     (handleMouseAction cols rows dm am x y startC goalC
        (expandSelect s c0 rest).2).2.2.finalPath = [] ∧
     (∀ d : Coord,
       ((handleMouseAction cols rows dm am x y startC goalC
          (expandSelect s c0 rest).2).2.2.cells d).g = .inf ∧
       ((handleMouseAction cols rows dm am x y startC goalC
          (expandSelect s c0 rest).2).2.2.cells d).h = 0 ∧
       ((handleMouseAction cols rows dm am x y startC goalC
          (expandSelect s c0 rest).2).2.2.cells d).f = .inf ∧
       ((handleMouseAction cols rows dm am x y startC goalC
          (expandSelect s c0 rest).2).2.2.cells d).parent = none)) ∧
    (stepWithEdit delay cols rows goal dm am x y startC goalC s).2.2 =
      stepB cols rows goal (expandSelect s c0 rest).1
        ((handleMouseAction cols rows dm am x y startC goalC
           (expandSelect s c0 rest).2).2.2) ∧
    (stepWithEdit delay cols rows goal dm am x y startC goalC s).2.2.status ≠
      .running ∧
    (∀ k : Nat, Nat.iterate (step delay cols rows goal) k
        (stepWithEdit delay cols rows goal dm am x y startC goalC s).2.2 =
      (stepWithEdit delay cols rows goal dm am x y startC goalC s).2.2) := by
  have hxy : x < cols ∧ y < rows := ⟨hx, hy⟩
  have hmouse : (handleMouseAction cols rows dm am x y startC goalC
      (expandSelect s c0 rest).2).2.2 =
      clearAlgorithmState { (expandSelect s c0 rest).2 with
        cells := (applyDraw dm am ⟨x, y⟩ startC goalC
          (expandSelect s c0 rest).2.cells).2.2 } := by
    simp [handleMouseAction, hxy]
  have hreset : (handleMouseAction cols rows dm am x y startC goalC
      (expandSelect s c0 rest).2).2.2.status = .cancelled ∧
      (handleMouseAction cols rows dm am x y startC goalC
        (expandSelect s c0 rest).2).2.2.openL = [] ∧
      (handleMouseAction cols rows dm am x y startC goalC
        (expandSelect s c0 rest).2).2.2.closedL = [] ∧
      (handleMouseAction cols rows dm am x y startC goalC
        (expandSelect s c0 rest).2).2.2.finalPath = [] := by
    rw [hmouse]
    exact ⟨rfl, rfl, rfl, rfl⟩
  have hedit : (stepWithEdit delay cols rows goal dm am x y startC goalC s).2.2 =
      stepB cols rows goal (expandSelect s c0 rest).1
        ((handleMouseAction cols rows dm am x y startC goalC
           (expandSelect s c0 rest).2).2.2) := by
    unfold stepWithEdit
    rw [hopen]
    simp [hrun, sleep_eq]
  have hnotrun : (stepWithEdit delay cols rows goal dm am x y startC goalC s).2.2.status ≠
      .running := by
    rw [hedit]
    apply stepB_not_running
    rw [hreset.1]
    simp
  refine ⟨⟨hreset.1, hreset.2.1, hreset.2.2.1, hreset.2.2.2, ?_⟩, hedit, hnotrun, ?_⟩
  · intro d
    rw [hmouse]
    exact ⟨rfl, rfl, rfl, rfl⟩
  · intro k
    exact iterate_step_of_not_running hnotrun k

/-- Witness for claim C7: an erase gesture on the start cell of a fresh
2 × 1 run, arriving during the first iteration. -/
theorem claim_C7_witness :
    ((handleMouseAction 2 1 .obstacle .erase 0 0 ⟨0, 0⟩ ⟨1, 0⟩
        (expandSelect (initState freeGrid ⟨0, 0⟩ ⟨1, 0⟩) ⟨0, 0⟩ []).2).2.2.status =
          .cancelled ∧
     (handleMouseAction 2 1 .obstacle .erase 0 0 ⟨0, 0⟩ ⟨1, 0⟩
        (expandSelect (initState freeGrid ⟨0, 0⟩ ⟨1, 0⟩) ⟨0, 0⟩ []).2).2.2.openL = [] ∧
     (handleMouseAction 2 1 .obstacle .erase 0 0 ⟨0, 0⟩ ⟨1, 0⟩
        (expandSelect (initState freeGrid ⟨0, 0⟩ ⟨1, 0⟩) ⟨0, 0⟩ []).2).2.2.closedL = [] ∧
     (handleMouseAction 2 1 .obstacle .erase 0 0 ⟨0, 0⟩ ⟨1, 0⟩
        (expandSelect (initState freeGrid ⟨0, 0⟩ ⟨1, 0⟩) ⟨0, 0⟩ []).2).2.2.finalPath = [] ∧
     (∀ d : Coord,
       ((handleMouseAction 2 1 .obstacle .erase 0 0 ⟨0, 0⟩ ⟨1, 0⟩
          (expandSelect (initState freeGrid ⟨0, 0⟩ ⟨1, 0⟩) ⟨0, 0⟩ []).2).2.2.cells d).g =
            .inf ∧
       ((handleMouseAction 2 1 .obstacle .erase 0 0 ⟨0, 0⟩ ⟨1, 0⟩
          (expandSelect (initState freeGrid ⟨0, 0⟩ ⟨1, 0⟩) ⟨0, 0⟩ []).2).2.2.cells d).h =
            0 ∧
       ((handleMouseAction 2 1 .obstacle .erase 0 0 ⟨0, 0⟩ ⟨1, 0⟩
          (expandSelect (initState freeGrid ⟨0, 0⟩ ⟨1, 0⟩) ⟨0, 0⟩ []).2).2.2.cells d).f =
            .inf ∧
       ((handleMouseAction 2 1 .obstacle .erase 0 0 ⟨0, 0⟩ ⟨1, 0⟩
          (expandSelect (initState freeGrid ⟨0, 0⟩ ⟨1, 0⟩) ⟨0, 0⟩ []).2).2.2.cells d).parent =
            none)) ∧
    (stepWithEdit true 2 1 ⟨1, 0⟩ .obstacle .erase 0 0 ⟨0, 0⟩ ⟨1, 0⟩
        (initState freeGrid ⟨0, 0⟩ ⟨1, 0⟩)).2.2 =
      stepB 2 1 ⟨1, 0⟩ (expandSelect (initState freeGrid ⟨0, 0⟩ ⟨1, 0⟩) ⟨0, 0⟩ []).1
        ((handleMouseAction 2 1 .obstacle .erase 0 0 ⟨0, 0⟩ ⟨1, 0⟩
           (expandSelect (initState freeGrid ⟨0, 0⟩ ⟨1, 0⟩) ⟨0, 0⟩ []).2).2.2) ∧
    (stepWithEdit true 2 1 ⟨1, 0⟩ .obstacle .erase 0 0 ⟨0, 0⟩ ⟨1, 0⟩
        (initState freeGrid ⟨0, 0⟩ ⟨1, 0⟩)).2.2.status ≠ .running ∧
    (∀ k : Nat, Nat.iterate (step true 2 1 ⟨1, 0⟩) k
        (stepWithEdit true 2 1 ⟨1, 0⟩ .obstacle .erase 0 0 ⟨0, 0⟩ ⟨1, 0⟩
          (initState freeGrid ⟨0, 0⟩ ⟨1, 0⟩)).2.2 =
      (stepWithEdit true 2 1 ⟨1, 0⟩ .obstacle .erase 0 0 ⟨0, 0⟩ ⟨1, 0⟩
        (initState freeGrid ⟨0, 0⟩ ⟨1, 0⟩)).2.2) :=
  claim_C7 true 2 1 ⟨1, 0⟩ .obstacle .erase 0 0 ⟨0, 0⟩ ⟨1, 0⟩
    (initState freeGrid ⟨0, 0⟩ ⟨1, 0⟩) ⟨0, 0⟩ [] rfl rfl (by decide) (by decide)

/-- Counterexample to claim C7 as stated: after an in-range edit during
a running iteration of a 2 × 1 search, the search state is not left
reset — the resumed remainder of the in-flight iteration pushes the
stale current cell's neighbor back onto the open list and writes its
parent pointer, so effects of an expansion step land after the cancel
and reset. -/
theorem claim_C7_counterexample :
    (stepWithEdit true 2 1 ⟨1, 0⟩ .obstacle .erase 0 0 ⟨0, 0⟩ ⟨1, 0⟩
        (initState freeGrid ⟨0, 0⟩ ⟨1, 0⟩)).2.2.openL = [⟨1, 0⟩] ∧
    ((stepWithEdit true 2 1 ⟨1, 0⟩ .obstacle .erase 0 0 ⟨0, 0⟩ ⟨1, 0⟩
        (initState freeGrid ⟨0, 0⟩ ⟨1, 0⟩)).2.2.cells ⟨1, 0⟩).parent =
      some ⟨0, 0⟩ ∧
    (stepWithEdit true 2 1 ⟨1, 0⟩ .obstacle .erase 0 0 ⟨0, 0⟩ ⟨1, 0⟩
        (initState freeGrid ⟨0, 0⟩ ⟨1, 0⟩)).2.2.status = .cancelled := by
  decide


/-! ### Entry behavior of startSimulation -/

/-- Claim C9 (amended): starting while a run is already in progress is a
silent no-op — the early isSimulationRunning check returns before any
state is touched and no error value is produced; but an undefined start
or goal cell is not reported as a MissingEndpoint error: the running
flag is set and every cell and list is reset first, and then the access
to the undefined endpoint throws an uncontrolled TypeError, leaving the
mutated state (and the stuck running flag) behind. -/
theorem claim_C9 (delay : Bool) (cols rows : Nat) (startC goalC : Option Coord)
    (s : SState) :
    (s.status = .running →
        startSimulation delay cols rows startC goalC s = (none, s)) ∧
    (s.status ≠ .running → startC = none →
        (startSimulation delay cols rows startC goalC s).1 = some .typeError ∧
        (startSimulation delay cols rows startC goalC s).2.status = .running ∧
        (startSimulation delay cols rows startC goalC s).2.openL = [] ∧
        (startSimulation delay cols rows startC goalC s).2.closedL = [] ∧
        (∀ d : Coord,
          ((startSimulation delay cols rows startC goalC s).2.cells d).g = .inf ∧
          ((startSimulation delay cols rows startC goalC s).2.cells d).parent = none)) ∧
    (s.status ≠ .running → ∀ st : Coord, startC = some st → goalC = none →
        (startSimulation delay cols rows startC goalC s).1 = some .typeError ∧
        (startSimulation delay cols rows startC goalC s).2.status = .running ∧
        ((startSimulation delay cols rows startC goalC s).2.cells st).g = .fin 0) := by
  refine ⟨?_, ?_, ?_⟩
  · intro hrun
    simp [startSimulation, hrun]
  · intro hrun hnone
    subst hnone
    refine ⟨?_, ?_, ?_, ?_, ?_⟩ <;>
      simp [startSimulation, hrun, resetCells]
  · intro hrun st hsome hnone
    subst hsome
    subst hnone
    refine ⟨?_, ?_, ?_⟩ <;>
      simp [startSimulation, hrun, resetCells, updateCell]

/-- Witness for claim C9: the three entry behaviors at concrete states. -/
theorem claim_C9_witness :
    startSimulation true 2 1 (some ⟨0, 0⟩) (some ⟨1, 0⟩)
        { stateC9 with status := .running } =
      (none, { stateC9 with status := .running }) ∧
    (startSimulation true 2 1 none (some ⟨1, 0⟩) stateC9).1 = some .typeError ∧
    (startSimulation true 2 1 none (some ⟨1, 0⟩) stateC9).2.status = .running ∧
    (startSimulation true 2 1 (some ⟨0, 0⟩) none stateC9).1 = some .typeError ∧
    ((startSimulation true 2 1 (some ⟨0, 0⟩) none stateC9).2.cells ⟨0, 0⟩).g =
      .fin 0 := by
  have h1 := (claim_C9 true 2 1 (some ⟨0, 0⟩) (some ⟨1, 0⟩)
    { stateC9 with status := .running }).1 rfl
  have h2 := (claim_C9 true 2 1 none (some ⟨1, 0⟩) stateC9).2.1 (by decide) rfl
  have h3 := (claim_C9 true 2 1 (some ⟨0, 0⟩) none stateC9).2.2 (by decide) ⟨0, 0⟩
    rfl rfl
  exact ⟨h1, h2.1, h2.2.1, h3.1, h3.2.2⟩

/-- Counterexample to claim C9 as stated: starting with an undefined
start cell while idle neither reports a MissingEndpoint result nor
leaves the state untouched — the model of the thrown TypeError escapes,
the open list has been cleared and the running flag is left set. -/
theorem claim_C9_counterexample :
    (startSimulation true 2 1 none (some ⟨1, 0⟩) stateC9).1 = some .typeError ∧
    (startSimulation true 2 1 none (some ⟨1, 0⟩) stateC9).2.openL ≠ stateC9.openL ∧
    (startSimulation true 2 1 none (some ⟨1, 0⟩) stateC9).2.status = .running := by
  decide

/-! ### Coincident start and goal markers -/

/-- Claim C10: drawing the start marker onto the goal cell is accepted
— nothing keeps the two markers apart, and afterwards they reference
the same cell; a run started with coincident start and goal succeeds on
its very first expansion with the one-cell (zero-edge) path, and
running to completion gives that same state. -/
theorem claim_C10 (delay : Bool) (cols rows : Nat) (grid : Coord → Cell)
    (startC : Coord) (gx gy : Nat) (s : SState) (c : Coord)
    (hx : gx < cols) (hy : gy < rows) :
    ((handleMouseAction cols rows .start .draw gx gy startC ⟨gx, gy⟩ s).1 =
      (handleMouseAction cols rows .start .draw gx gy startC ⟨gx, gy⟩ s).2.1) ∧
    (step delay cols rows c (initState grid c c)).status = .succeeded ∧
    (step delay cols rows c (initState grid c c)).iterations = 1 ∧
    (step delay cols rows c (initState grid c c)).finalPath = [c] ∧
    runToCompletion delay cols rows grid c c =
      step delay cols rows c (initState grid c c) := by
  have hxy : gx < cols ∧ gy < rows := ⟨hx, hy⟩
  have hstep : step delay cols rows c (initState grid c c) =
      stepB cols rows c c (expandSelect (initState grid c c) c []).2 :=
    step_expand delay cols rows c (initState grid c c) c [] rfl rfl
  have hpar : ((expandSelect (initState grid c c) c []).2.cells c).parent = none := by
    show ((initState grid c c).cells c).parent = none
    simp [initState, updateCell, resetCells]
  have hsucc : (step delay cols rows c (initState grid c c)).status = .succeeded := by
    rw [hstep]
    simp [stepB]
  refine ⟨?_, hsucc, ?_, ?_, ?_⟩
  · simp [handleMouseAction, hxy, applyDraw]
  · rw [hstep]
    rw [stepB_iterations]
    rfl
  · rw [hstep]
    show (stepB cols rows c c (expandSelect (initState grid c c) c []).2).finalPath = [c]
    simp only [stepB, if_pos rfl]
    show reconstructPath (expandSelect (initState grid c c) c []).2.cells
        (cols * rows + 1) c = [c]
    unfold reconstructPath
    rw [show (chainW (expandSelect (initState grid c c) c []).2.cells
        (cols * rows + 1) (some c)) = [c] from by rw [chainW, hpar, chainW_none]]
    rfl
  · show runN delay cols rows grid c c 5002 = _
    have h5002 : runN delay cols rows grid c c 5002 =
        Nat.iterate (step delay cols rows c) 5001
          (step delay cols rows c (initState grid c c)) := by
      show Nat.iterate (step delay cols rows c) 5002 (initState grid c c) = _
      rw [show (5002 : Nat) = 5001 + 1 from rfl, Function.iterate_add_apply]
      rfl
    rw [h5002]
    apply iterate_step_of_not_running
    rw [hsucc]
    simp

/-- Witness for claim C10 on a 2 × 1 grid with both markers at the
origin. -/
theorem claim_C10_witness :
    ((handleMouseAction 2 1 .start .draw 1 0 ⟨0, 0⟩ ⟨1, 0⟩ stateC9).1 =
      (handleMouseAction 2 1 .start .draw 1 0 ⟨0, 0⟩ ⟨1, 0⟩ stateC9).2.1) ∧
    (step true 2 1 ⟨0, 0⟩ (initState freeGrid ⟨0, 0⟩ ⟨0, 0⟩)).status = .succeeded ∧
    (step true 2 1 ⟨0, 0⟩ (initState freeGrid ⟨0, 0⟩ ⟨0, 0⟩)).iterations = 1 ∧
    (step true 2 1 ⟨0, 0⟩ (initState freeGrid ⟨0, 0⟩ ⟨0, 0⟩)).finalPath = [⟨0, 0⟩] ∧
    runToCompletion true 2 1 freeGrid ⟨0, 0⟩ ⟨0, 0⟩ =
      step true 2 1 ⟨0, 0⟩ (initState freeGrid ⟨0, 0⟩ ⟨0, 0⟩) :=
  claim_C10 true 2 1 freeGrid ⟨0, 0⟩ 1 0 stateC9 ⟨0, 0⟩ (by decide) (by decide)


/-! ### Grid geometry -/

theorem mem_neighbors {cols rows : Nat} {c nb : Coord} :
    nb ∈ neighbors cols rows c ↔
      (0 < c.x ∧ nb = ⟨c.x - 1, c.y⟩) ∨ (c.x < cols - 1 ∧ nb = ⟨c.x + 1, c.y⟩) ∨
      (0 < c.y ∧ nb = ⟨c.x, c.y - 1⟩) ∨ (c.y < rows - 1 ∧ nb = ⟨c.x, c.y + 1⟩) := by
  unfold neighbors
  by_cases h1 : 0 < c.x <;> by_cases h2 : c.x < cols - 1 <;>
    by_cases h3 : 0 < c.y <;> by_cases h4 : c.y < rows - 1 <;>
    simp [h1, h2, h3, h4]

theorem neighbors_inRange {cols rows : Nat} {c nb : Coord}
    (h : nb ∈ neighbors cols rows c) (hc : inRange cols rows c) :
    inRange cols rows nb := by
  obtain ⟨hx, hy⟩ := hc
  rw [mem_neighbors] at h
  rcases h with ⟨h, rfl⟩ | ⟨h, rfl⟩ | ⟨h, rfl⟩ | ⟨h, rfl⟩ <;>
    (refine ⟨?_, ?_⟩ <;> simp only [inRange] <;> omega)

theorem neighbors_manhattan {cols rows : Nat} {c nb : Coord}
    (h : nb ∈ neighbors cols rows c) : manhattanDistance c nb = 1 := by
  rw [mem_neighbors] at h
  unfold manhattanDistance absDiff
  rcases h with ⟨h, rfl⟩ | ⟨h, rfl⟩ | ⟨h, rfl⟩ | ⟨h, rfl⟩ <;> simp <;> omega

theorem manhattan_comm (a b : Coord) :
    manhattanDistance a b = manhattanDistance b a := by
  unfold manhattanDistance absDiff
  omega

theorem manhattan_triangle (a b c : Coord) :
    manhattanDistance a c ≤ manhattanDistance a b + manhattanDistance b c := by
  unfold manhattanDistance absDiff
  omega

theorem coord_list_card {cols rows : Nat} {l : List Coord} (hnd : l.Nodup)
    (hr : ∀ c ∈ l, inRange cols rows c) : l.length ≤ cols * rows := by
  have hsub : l.toFinset ⊆ (Finset.range cols ×ˢ Finset.range rows).image
      (fun q : Nat × Nat => (⟨q.1, q.2⟩ : Coord)) := by
    intro c hc
    rw [List.mem_toFinset] at hc
    rcases hr c hc with ⟨hx, hy⟩
    rw [Finset.mem_image]
    exact ⟨(c.x, c.y),
      Finset.mem_product.mpr ⟨Finset.mem_range.mpr hx, Finset.mem_range.mpr hy⟩, rfl⟩
  calc l.length = l.toFinset.card := (List.toFinset_card_of_nodup hnd).symm
    _ ≤ ((Finset.range cols ×ˢ Finset.range rows).image
          (fun q : Nat × Nat => (⟨q.1, q.2⟩ : Coord))).card := Finset.card_le_card hsub
    _ ≤ (Finset.range cols ×ˢ Finset.range rows).card := Finset.card_image_le
    _ = cols * rows := by rw [Finset.card_product, Finset.card_range, Finset.card_range]

theorem mem_eraseIdx_of_ne {l : List Coord} {k : Nat} {a b : Coord}
    (hmem : b ∈ l) (hk : l[k]? = some a) (hne : b ≠ a) : b ∈ l.eraseIdx k := by
  obtain ⟨i, hi⟩ := List.getElem?_of_mem hmem
  refine List.mem_eraseIdx_iff_getElem?.mpr ⟨i, ?_, hi⟩
  rintro rfl
  rw [hi] at hk
  exact hne (Option.some_injective _ hk)


/-! ### Preservation of the fold invariant through one neighbor -/

theorem processNeighbor_openL_mono {goal cur : Coord} {t : SState} {n d : Coord}
    (hd : d ∈ t.openL) : d ∈ (processNeighbor goal cur t n).openL := by
  rcases processNeighbor_eq_or goal cur t n with heq | ⟨-, -, -, hop⟩
  · rw [heq]
    exact hd
  · rcases hop with ⟨-, hopeq⟩ | ⟨-, hopeq⟩
    · rw [hopeq]
      exact hd
    · rw [hopeq, List.mem_append]
      exact Or.inl hd

theorem foldl_pn_openL_mono {goal cur : Coord} {l : List Coord} {t : SState}
    {d : Coord} (hd : d ∈ t.openL) :
    d ∈ (l.foldl (processNeighbor goal cur) t).openL :=
  foldl_pres (processNeighbor goal cur) (fun u => d ∈ u.openL)
    (fun u n hu => processNeighbor_openL_mono hu) l t hd

theorem processNeighbor_mem_of_free (goal cur : Coord) {t : SState} {n : Coord}
    (hob : (t.cells n).obstacle = false) :
    n ∈ (processNeighbor goal cur t n).openL ∨
    n ∈ (processNeighbor goal cur t n).closedL := by
  by_cases hcl : n ∈ t.closedL
  · right
    rw [processNeighbor_closedL]
    exact hcl
  · left
    have hcond : ¬((t.cells n).obstacle = true ∨ n ∈ t.closedL) := by
      simp [hob, hcl]
    by_cases hop : n ∈ t.openL
    · by_cases hge : (((t.cells cur).g.add1).ge ((t.cells n).g)) = true
      · simp [processNeighbor, hcond, hop, hge]
      · simp [processNeighbor, hcond, hop, hge]
    · simp [processNeighbor, hcond, hop]

/-- One application of the neighbor body preserves the fold invariant,
for a neighbor n of the expanded cell cur whose g value is kc. -/
theorem processNeighbor_mid {cols rows : Nat} {grid : Coord → Cell}
    {startC goalC cur : Coord} {kc : Nat} {t : SState} {n : Coord}
    (hnmem : n ∈ neighbors cols rows cur)
    (hmid : MidInv cols rows grid startC cur t)
    (hcur : cur ∈ t.closedL) (hg : (t.cells cur).g = JVal.fin kc)
    (hiter : kc + 1 ≤ t.iterations) :
    MidInv cols rows grid startC cur (processNeighbor goalC cur t n) := by
  rcases processNeighbor_eq_or goalC cur t n with heq | ⟨hncl, hob, hcells, hop⟩
  · rw [heq]
    exact hmid
  · have hnecur : n ≠ cur := by
      rintro rfl
      exact hncl hcur
    have hnestart : n ≠ startC := by
      rintro rfl
      exact hncl hmid.startClosed
    have hclosed := processNeighbor_closedL goalC cur t n
    have hiters := processNeighbor_iterations goalC cur t n
    have hcells_other : ∀ c : Coord, c ≠ n →
        (processNeighbor goalC cur t n).cells c = t.cells c := by
      intro c hc
      rw [hcells]
      unfold updateCell
      rw [if_neg hc]
    have hcells_n : (processNeighbor goalC cur t n).cells n =
        writtenCell goalC cur t.cells n := by
      rw [hcells]
      unfold updateCell
      rw [if_pos rfl]
    have hw_parent : (writtenCell goalC cur t.cells n).parent = some cur := rfl
    have hw_g : (writtenCell goalC cur t.cells n).g = JVal.fin (kc + 1) := by
      show (t.cells cur).g.add1 = JVal.fin (kc + 1)
      rw [hg]
      rfl
    have hw_obstacle : (writtenCell goalC cur t.cells n).obstacle =
        (t.cells n).obstacle := rfl
    have hopmem : ∀ d : Coord, d ∈ t.openL → d ∈ (processNeighbor goalC cur t n).openL :=
      fun d hd => processNeighbor_openL_mono hd
    have hopmem2 : n ∈ (processNeighbor goalC cur t n).openL := by
      rcases hop with ⟨hmem, hopeq⟩ | ⟨hmem, hopeq⟩
      · rw [hopeq]
        exact hmem
      · rw [hopeq, List.mem_append, List.mem_singleton]
        exact Or.inr rfl
    have hopback : ∀ d : Coord, d ∈ (processNeighbor goalC cur t n).openL →
        d ∈ t.openL ∨ d = n := by
      intro d hd
      rcases hop with ⟨hmem, hopeq⟩ | ⟨hmem, hopeq⟩
      · rw [hopeq] at hd
        exact Or.inl hd
      · rw [hopeq, List.mem_append, List.mem_singleton] at hd
        exact hd
    refine ⟨processNeighbor_slim hmid.slim n, ?_, ?_, ?_, ?_, ?_, ?_, ?_, ?_, ?_, ?_, ?_⟩
    · intro c
      by_cases hc : c = n
      · subst hc
        rw [hcells_n, hw_obstacle]
        exact hmid.obstacleEq c
      · rw [hcells_other c hc]
        exact hmid.obstacleEq c
    · intro c hc
      rw [hclosed] at hc
      rcases hc with hc | hc
      · rcases hopback c hc with hc2 | rfl
        · exact hmid.memRange c (Or.inl hc2)
        · exact neighbors_inRange hnmem (hmid.memRange cur (Or.inr hcur))
      · exact hmid.memRange c (Or.inr hc)
    · intro c hc hne nb hnb hobnb
      rw [hclosed] at hc
      rcases hmid.frontierOld c hc hne nb hnb hobnb with hmem | hmem
      · exact Or.inl (hopmem nb hmem)
      · right
        rw [hclosed]
        exact hmem
    · rw [hclosed]
      exact hmid.startClosed
    · rw [hcells_other startC (Ne.symm hnestart)]
      exact hmid.startCellInv
    · intro c hc
      by_cases hceq : c = n
      · subst hceq
        rw [hcells_n, hw_g]
        exact ⟨kc + 1, rfl⟩
      · rw [hcells_other c hceq]
        rw [hclosed] at hc
        rcases hc with hc | hc
        · rcases hopback c hc with hc2 | hc2
          · exact hmid.memFinite c (Or.inl hc2)
          · exact absurd hc2 hceq
        · exact hmid.memFinite c (Or.inr hc)
    · intro c k hk
      by_cases hceq : c = n
      · subst hceq
        exact Or.inl hopmem2
      · rw [hcells_other c hceq] at hk
        rcases hmid.finiteMem c k hk with hc | hc
        · exact Or.inl (hopmem c hc)
        · right
          rw [hclosed]
          exact hc
    · intro c p hp
      by_cases hceq : c = n
      · subst hceq
        rw [hcells_n, hw_parent] at hp
        obtain rfl : cur = p := Option.some_injective _ hp
        refine ⟨by rw [hclosed]; exact hcur, hnmem, kc, ?_, ?_⟩
        · rw [hcells_other cur (Ne.symm hnecur)]
          exact hg
        · rw [hcells_n, hw_g]
      · rw [hcells_other c hceq] at hp
        obtain ⟨hpcl, hcnb, k, hk1, hk2⟩ := hmid.parentInv c p hp
        have hpne : p ≠ n := by
          rintro rfl
          exact hncl hpcl
        refine ⟨by rw [hclosed]; exact hpcl, hcnb, k, ?_, ?_⟩
        · rw [hcells_other p hpne]
          exact hk1
        · rw [hcells_other c hceq]
          exact hk2
    · intro c k hk hcne
      by_cases hceq : c = n
      · subst hceq
        rw [hcells_n, hw_parent]
        simp
      · rw [hcells_other c hceq] at hk
        rw [hcells_other c hceq]
        exact hmid.parentOfFinite c k hk hcne
    · rw [hiters, hclosed]
      exact hmid.iterEq
    · intro c k hk
      rw [hiters]
      by_cases hceq : c = n
      · subst hceq
        rw [hcells_n, hw_g] at hk
        have hkk : kc + 1 = k := JVal.fin.inj hk
        omega
      · rw [hcells_other c hceq] at hk
        exact hmid.gBound c k hk


/-- The whole neighbor fold preserves the fold invariant and afterwards
every non-obstacle processed neighbor sits in the open or closed list. -/
theorem fold_mid (cols rows : Nat) (grid : Coord → Cell)
    (startC goalC cur : Coord) (kc : Nat) :
    ∀ (l : List Coord) (t : SState),
      (∀ nb ∈ l, nb ∈ neighbors cols rows cur) →
      MidInv cols rows grid startC cur t →
      cur ∈ t.closedL → (t.cells cur).g = JVal.fin kc → kc + 1 ≤ t.iterations →
      MidInv cols rows grid startC cur (l.foldl (processNeighbor goalC cur) t) ∧
      (∀ nb ∈ l, (grid nb).obstacle = false →
        nb ∈ (l.foldl (processNeighbor goalC cur) t).openL ∨
        nb ∈ (l.foldl (processNeighbor goalC cur) t).closedL) := by
  intro l
  induction l with
  | nil =>
      intro t hsub hmid hcur hg hiter
      exact ⟨hmid, by intro nb hnb; exact absurd hnb (List.not_mem_nil nb)⟩
  | cons n rest ih =>
      intro t hsub hmid hcur hg hiter
      have hnmem : n ∈ neighbors cols rows cur := hsub n (List.mem_cons_self n rest)
      have hmid2 : MidInv cols rows grid startC cur (processNeighbor goalC cur t n) :=
        processNeighbor_mid hnmem hmid hcur hg hiter
      have hcur2 : cur ∈ (processNeighbor goalC cur t n).closedL := by
        rw [processNeighbor_closedL]
        exact hcur
      have hg2 : ((processNeighbor goalC cur t n).cells cur).g = JVal.fin kc := by
        rcases processNeighbor_eq_or goalC cur t n with heq | ⟨hncl, -, hcells, -⟩
        · rw [heq]
          exact hg
        · rw [hcells]
          unfold updateCell
          rw [if_neg]
          · exact hg
          · rintro rfl
            exact hncl hcur
      have hiter2 : kc + 1 ≤ (processNeighbor goalC cur t n).iterations := by
        rw [processNeighbor_iterations]
        exact hiter
      have hsub2 : ∀ nb ∈ rest, nb ∈ neighbors cols rows cur := by
        intro nb hnb
        exact hsub nb (List.mem_cons_of_mem n hnb)
      obtain ⟨hfold, hfree⟩ := ih (processNeighbor goalC cur t n) hsub2 hmid2 hcur2
        hg2 hiter2
      rw [List.foldl_cons]
      refine ⟨hfold, ?_⟩
      intro nb hnb hobnb
      rcases List.mem_cons.mp hnb with rfl | hnb2
      · have hob : (t.cells nb).obstacle = false := by
          rw [hmid.obstacleEq nb]
          exact hobnb
        rcases processNeighbor_mem_of_free goalC cur hob with
          hmem | hmem
        · exact Or.inl (foldl_pn_openL_mono hmem)
        · right
          rw [foldl_pn_closedL, processNeighbor_closedL]
          rw [processNeighbor_closedL] at hmem
          exact hmem
      · exact hfree nb hnb2 hobnb

/-- The selection phase sends a state satisfying the run invariant into
one satisfying the fold invariant for the selected cell, with the
bookkeeping facts the fold needs. -/
theorem expandSelect_mid {cols rows : Nat} {grid : Coord → Cell}
    {startC goalC : Coord} {s : SState} {c0 : Coord} {rest : List Coord}
    (hInv : Inv cols rows grid startC goalC s) (hrun : s.status = .running)
    (hopen : s.openL = c0 :: rest) :
    MidInv cols rows grid startC (expandSelect s c0 rest).1
      (expandSelect s c0 rest).2 ∧
    (expandSelect s c0 rest).1 ∈ (expandSelect s c0 rest).2.closedL ∧
    ∃ kc : Nat, ((expandSelect s c0 rest).2.cells (expandSelect s c0 rest).1).g =
        JVal.fin kc ∧
      kc + 1 ≤ (expandSelect s c0 rest).2.iterations := by
  obtain ⟨hsel0, -, -⟩ := findMinFrom_sel s.cells c0 rest
  have hsel : s.openL[(findMinFrom s.cells (c0, 0) 1 rest).2]? =
      some (findMinFrom s.cells (c0, 0) 1 rest).1 := by
    rw [hopen]
    exact hsel0
  have hselmem : (findMinFrom s.cells (c0, 0) 1 rest).1 ∈ s.openL := by
    rw [hopen]
    exact findMinFrom_sel_mem s.cells c0 rest
  have hslim1 : SlimInv (expandSelect s c0 rest).2 := expandSelect_slim hInv.slim hopen
  have hopeneq : (expandSelect s c0 rest).2.openL =
      (c0 :: rest).eraseIdx (findMinFrom s.cells (c0, 0) 1 rest).2 := rfl
  have hclosedeq : (expandSelect s c0 rest).2.closedL =
      s.closedL ++ [(findMinFrom s.cells (c0, 0) 1 rest).1] := rfl
  have hcellseq : (expandSelect s c0 rest).2.cells = s.cells := rfl
  have hcureq : (expandSelect s c0 rest).1 = (findMinFrom s.cells (c0, 0) 1 rest).1 := rfl
  have hopensub : ∀ d : Coord, d ∈ (expandSelect s c0 rest).2.openL → d ∈ s.openL := by
    intro d hd
    rw [hopeneq] at hd
    rw [hopen]
    exact (List.eraseIdx_sublist _ _).mem hd
  have hopenkeep : ∀ d : Coord, d ∈ s.openL →
      d ≠ (findMinFrom s.cells (c0, 0) 1 rest).1 →
      d ∈ (expandSelect s c0 rest).2.openL := by
    intro d hd hne
    rw [hopeneq]
    rw [hopen] at hd
    exact mem_eraseIdx_of_ne hd hsel0 hne
  have hcurclosed : (expandSelect s c0 rest).1 ∈ (expandSelect s c0 rest).2.closedL := by
    rw [hclosedeq, hcureq, List.mem_append, List.mem_singleton]
    exact Or.inr rfl
  obtain ⟨kc, hkc⟩ := hInv.memFinite _ (Or.inl hselmem)
  refine ⟨⟨hslim1, ?_, ?_, ?_, ?_, ?_, ?_, ?_, ?_, ?_, ?_, ?_⟩, hcurclosed, kc, ?_, ?_⟩
  · intro c
    rw [hcellseq]
    exact hInv.obstacleEq c
  · intro c hc
    rcases hc with hc | hc
    · exact hInv.memRange c (Or.inl (hopensub c hc))
    · rw [hclosedeq, List.mem_append, List.mem_singleton] at hc
      rcases hc with hc | rfl
      · exact hInv.memRange c (Or.inr hc)
      · exact hInv.memRange _ (Or.inl hselmem)
  · intro c hc hne nb hnb hobnb
    rw [hclosedeq] at hc
    rw [List.mem_append, List.mem_singleton] at hc
    rcases hc with hc | rfl
    · rcases hInv.frontier hrun c hc nb hnb hobnb with hmem | hmem
      · by_cases hnbsel : nb = (findMinFrom s.cells (c0, 0) 1 rest).1
        · right
          rw [hclosedeq, List.mem_append, List.mem_singleton]
          exact Or.inr hnbsel
        · exact Or.inl (hopenkeep nb hmem hnbsel)
      · right
        rw [hclosedeq, List.mem_append]
        exact Or.inl hmem
    · exact absurd (hcureq ▸ rfl) hne
  · rcases hInv.startPlaced hrun with hc | ⟨hopeq2, -⟩
    · rw [hclosedeq, List.mem_append]
      exact Or.inl hc
    · have hc0 : c0 = startC ∧ rest = [] := by
        rw [hopen] at hopeq2
        exact ⟨(List.cons.injEq _ _ _ _).mp hopeq2 |>.1,
               (List.cons.injEq _ _ _ _).mp hopeq2 |>.2⟩
      obtain ⟨rfl, rfl⟩ := hc0
      rw [hclosedeq, List.mem_append, List.mem_singleton]
      right
      rfl
  · rw [hcellseq]
    exact hInv.startCellInv
  · intro c hc
    rw [hcellseq]
    rcases hc with hc | hc
    · exact hInv.memFinite c (Or.inl (hopensub c hc))
    · rw [hclosedeq, List.mem_append, List.mem_singleton] at hc
      rcases hc with hc | rfl
      · exact hInv.memFinite c (Or.inr hc)
      · exact hInv.memFinite _ (Or.inl hselmem)
  · intro c k hk
    rw [hcellseq] at hk
    rcases hInv.finiteMem c k hk with hc | hc
    · by_cases hcsel : c = (findMinFrom s.cells (c0, 0) 1 rest).1
      · right
        rw [hclosedeq, List.mem_append, List.mem_singleton]
        exact Or.inr hcsel
      · exact Or.inl (hopenkeep c hc hcsel)
    · right
      rw [hclosedeq, List.mem_append]
      exact Or.inl hc
  · intro c p hp
    rw [hcellseq] at hp
    obtain ⟨hpcl, hcnb, k, hk1, hk2⟩ := hInv.parentInv c p hp
    refine ⟨?_, hcnb, k, ?_, ?_⟩
    · rw [hclosedeq, List.mem_append]
      exact Or.inl hpcl
    · rw [hcellseq]
      exact hk1
    · rw [hcellseq]
      exact hk2
  · intro c k hk hne
    rw [hcellseq] at hk
    rw [hcellseq]
    exact hInv.parentOfFinite c k hk hne
  · show s.iterations + 1 = (s.closedL ++ [(findMinFrom s.cells (c0, 0) 1 rest).1]).length
    rw [List.length_append, List.length_singleton, hInv.iterEq]
  · intro c k hk
    rw [hcellseq] at hk
    show k ≤ s.iterations + 1
    have := hInv.gBound c k hk
    omega
  · rw [hcellseq, hcureq]
    exact hkc
  · show kc + 1 ≤ s.iterations + 1
    have := hInv.gBound _ kc (hcellseq ▸ hkc)
    omega


/-- Transfer the fold invariant along a state whose cell arena, lists
and iteration counter agree (only status/finalPath may differ). -/
theorem mid_retarget {cols rows : Nat} {grid : Coord → Cell}
    {startC cur : Coord} {t u : SState}
    (hmid : MidInv cols rows grid startC cur t)
    (hcells : u.cells = t.cells) (hopen : u.openL = t.openL)
    (hclosed : u.closedL = t.closedL) (hiter : u.iterations = t.iterations) :
    MidInv cols rows grid startC cur u := by
  refine ⟨⟨?_, ?_, ?_⟩, ?_, ?_, ?_, ?_, ?_, ?_, ?_, ?_, ?_, ?_, ?_⟩
  · rw [hopen]
    exact hmid.slim.openNodup
  · rw [hclosed]
    exact hmid.slim.closedNodup
  · intro c hc
    rw [hclosed]
    rw [hopen] at hc
    exact hmid.slim.disj c hc
  · intro c
    rw [hcells]
    exact hmid.obstacleEq c
  · intro c hc
    rw [hopen, hclosed] at hc
    exact hmid.memRange c hc
  · intro c hc hne nb hnb hobnb
    rw [hclosed] at hc
    rw [hopen, hclosed]
    exact hmid.frontierOld c hc hne nb hnb hobnb
  · rw [hclosed]
    exact hmid.startClosed
  · rw [hcells]
    exact hmid.startCellInv
  · intro c hc
    rw [hcells]
    rw [hopen, hclosed] at hc
    exact hmid.memFinite c hc
  · intro c k hk
    rw [hcells] at hk
    rw [hopen, hclosed]
    exact hmid.finiteMem c k hk
  · intro c p hp
    rw [hcells] at hp
    rw [hcells, hclosed]
    exact hmid.parentInv c p hp
  · intro c k hk hne
    rw [hcells] at hk
    rw [hcells]
    exact hmid.parentOfFinite c k hk hne
  · rw [hiter, hclosed]
    exact hmid.iterEq
  · intro c k hk
    rw [hcells] at hk
    rw [hiter]
    exact hmid.gBound c k hk

/-- Build the run invariant from the fold invariant plus the three
status-dependent facts. -/
theorem inv_of_mid {cols rows : Nat} {grid : Coord → Cell}
    {startC goalC cur : Coord} {t : SState}
    (hmid : MidInv cols rows grid startC cur t)
    (hfrontier : t.status = .running → ∀ c ∈ t.closedL, ∀ nb ∈ neighbors cols rows c,
        (grid nb).obstacle = false → nb ∈ t.openL ∨ nb ∈ t.closedL)
    (hgoalopen : t.status = .running → goalC ∉ t.closedL)
    (hsucc : t.status = .succeeded →
        t.finalPath = reconstructPath t.cells (cols * rows + 1) goalC ∧
        goalC ∈ t.closedL) :
    Inv cols rows grid startC goalC t :=
  { slim := hmid.slim, obstacleEq := hmid.obstacleEq, memRange := hmid.memRange,
    frontier := hfrontier,
    startPlaced := fun _ => Or.inl hmid.startClosed,
    goalOpen := hgoalopen,
    startCellInv := hmid.startCellInv, memFinite := hmid.memFinite,
    finiteMem := hmid.finiteMem, parentInv := hmid.parentInv,
    parentOfFinite := hmid.parentOfFinite, iterEq := hmid.iterEq,
    gBound := hmid.gBound, succInv := hsucc }

/-- One loop iteration preserves the run invariant. -/
theorem step_inv {delay : Bool} {cols rows : Nat} {grid : Coord → Cell}
    {startC goalC : Coord} {s : SState}
    (hInv : Inv cols rows grid startC goalC s) :
    Inv cols rows grid startC goalC (step delay cols rows goalC s) := by
  by_cases hrun : s.status = .running
  · cases hop : s.openL with
    | nil =>
        have he : step delay cols rows goalC s = { s with status := .failed } := by
          unfold step
          rw [hop]
          simp [hrun, hop]
        rw [he]
        exact { slim := ⟨hInv.slim.openNodup, hInv.slim.closedNodup, hInv.slim.disj⟩,
                obstacleEq := hInv.obstacleEq, memRange := hInv.memRange,
                frontier := fun h => absurd h (by simp),
                startPlaced := fun h => absurd h (by simp),
                goalOpen := fun h => absurd h (by simp),
                startCellInv := hInv.startCellInv, memFinite := hInv.memFinite,
                finiteMem := hInv.finiteMem, parentInv := hInv.parentInv,
                parentOfFinite := hInv.parentOfFinite, iterEq := hInv.iterEq,
                gBound := hInv.gBound, succInv := fun h => absurd h (by simp) }
    | cons c0 rest =>
        rw [step_expand delay cols rows goalC s c0 rest hrun hop]
        obtain ⟨hmid, hcurcl, kc, hkc, hkci⟩ := expandSelect_mid hInv hrun hop
        have hselmem : (findMinFrom s.cells (c0, 0) 1 rest).1 ∈ s.openL := by
          rw [hop]
          exact findMinFrom_sel_mem s.cells c0 rest
        have hselnotclosed : (findMinFrom s.cells (c0, 0) 1 rest).1 ∉ s.closedL :=
          hInv.slim.disj _ hselmem
        by_cases hgoal : (expandSelect s c0 rest).1 = goalC
        · have he : stepB cols rows goalC (expandSelect s c0 rest).1
              (expandSelect s c0 rest).2 =
              { (expandSelect s c0 rest).2 with
                finalPath := reconstructPath (expandSelect s c0 rest).2.cells
                  (cols * rows + 1) goalC,
                status := .succeeded } := by
            simp [stepB, hgoal]
          rw [he]
          refine inv_of_mid (mid_retarget hmid rfl rfl rfl rfl) ?_ ?_ ?_
          · intro h
            exact absurd h (by simp)
          · intro h
            exact absurd h (by simp)
          · intro _
            refine ⟨rfl, ?_⟩
            show goalC ∈ (expandSelect s c0 rest).2.closedL
            rw [← hgoal]
            exact hcurcl
        · obtain ⟨hmid2, hfree⟩ := fold_mid cols rows grid startC goalC
            (expandSelect s c0 rest).1 kc
            (neighbors cols rows (expandSelect s c0 rest).1)
            (expandSelect s c0 rest).2 (fun nb h => h) hmid hcurcl hkc hkci
          have hstat : ((neighbors cols rows (expandSelect s c0 rest).1).foldl
              (processNeighbor goalC (expandSelect s c0 rest).1)
              (expandSelect s c0 rest).2).status = .running := by
            rw [foldl_pn_status]
            exact hrun
          have hclo : ((neighbors cols rows (expandSelect s c0 rest).1).foldl
              (processNeighbor goalC (expandSelect s c0 rest).1)
              (expandSelect s c0 rest).2).closedL =
              s.closedL ++ [(findMinFrom s.cells (c0, 0) 1 rest).1] := by
            rw [foldl_pn_closedL]
            rfl
          by_cases hcap : 5000 < ((neighbors cols rows (expandSelect s c0 rest).1).foldl
              (processNeighbor goalC (expandSelect s c0 rest).1)
              (expandSelect s c0 rest).2).iterations
          · have he : stepB cols rows goalC (expandSelect s c0 rest).1
                (expandSelect s c0 rest).2 =
                { (neighbors cols rows (expandSelect s c0 rest).1).foldl
                    (processNeighbor goalC (expandSelect s c0 rest).1)
                    (expandSelect s c0 rest).2 with status := .failed } := by
              simp [stepB, hgoal, hcap]
            rw [he]
            refine inv_of_mid (mid_retarget hmid2 rfl rfl rfl rfl) ?_ ?_ ?_
            · intro h
              exact absurd h (by simp)
            · intro h
              exact absurd h (by simp)
            · intro h
              exact absurd h (by simp)
          · have he : stepB cols rows goalC (expandSelect s c0 rest).1
                (expandSelect s c0 rest).2 =
                (neighbors cols rows (expandSelect s c0 rest).1).foldl
                  (processNeighbor goalC (expandSelect s c0 rest).1)
                  (expandSelect s c0 rest).2 := by
              simp [stepB, hgoal, hcap]
            rw [he]
            apply inv_of_mid hmid2
            · intro _ c hc nb hnb hobnb
              rw [hclo, List.mem_append, List.mem_singleton] at hc
              rcases hc with hc | rfl
              · have hcne : c ≠ (expandSelect s c0 rest).1 := by
                  rintro rfl
                  exact hselnotclosed hc
                refine hmid2.frontierOld c ?_ hcne nb hnb hobnb
                rw [hclo, List.mem_append]
                exact Or.inl hc
              · exact hfree nb hnb hobnb
            · intro _
              rw [hclo, List.mem_append, List.mem_singleton]
              rintro (hmem | hmem)
              · exact hInv.goalOpen hrun hmem
              · exact hgoal hmem.symm
            · intro h
              rw [hstat] at h
              exact absurd h (by simp)
  · rw [step_of_not_running hrun]
    exact hInv

/-- The freshly initialized run satisfies the run invariant. -/
theorem initState_inv (cols rows : Nat) (grid : Coord → Cell)
    (startC goalC : Coord) (hstart : inRange cols rows startC) :
    Inv cols rows grid startC goalC (initState grid startC goalC) := by
  have hg : ∀ c : Coord, ((initState grid startC goalC).cells c).g =
      if c = startC then JVal.fin 0 else JVal.inf := by
    intro c
    by_cases hc : c = startC <;> simp [initState, updateCell, resetCells, hc]
  have hpar : ∀ c : Coord, ((initState grid startC goalC).cells c).parent = none := by
    intro c
    by_cases hc : c = startC <;> simp [initState, updateCell, resetCells, hc]
  have hob : ∀ c : Coord, ((initState grid startC goalC).cells c).obstacle =
      (grid c).obstacle := by
    intro c
    by_cases hc : c = startC <;> simp [initState, updateCell, resetCells, hc]
  have hopeneq : (initState grid startC goalC).openL = [startC] := rfl
  have hclosedeq : (initState grid startC goalC).closedL = [] := rfl
  refine ⟨initState_slim grid startC goalC, hob, ?_, ?_, ?_, ?_, ?_, ?_, ?_, ?_, ?_,
    rfl, ?_, ?_⟩
  · intro c hc
    rcases hc with hc | hc
    · rw [hopeneq, List.mem_singleton] at hc
      subst hc
      exact hstart
    · rw [hclosedeq] at hc
      exact absurd hc (List.not_mem_nil c)
  · intro _ c hc
    rw [hclosedeq] at hc
    exact absurd hc (List.not_mem_nil c)
  · intro _
    right
    exact ⟨rfl, rfl⟩
  · intro _
    rw [hclosedeq]
    exact List.not_mem_nil goalC
  · constructor
    · rw [hg]
      simp
    · exact hpar startC
  · intro c hc
    rcases hc with hc | hc
    · rw [hopeneq, List.mem_singleton] at hc
      subst hc
      exact ⟨0, by rw [hg]; simp⟩
    · rw [hclosedeq] at hc
      exact absurd hc (List.not_mem_nil c)
  · intro c k hk
    rw [hg] at hk
    by_cases hc : c = startC
    · left
      rw [hopeneq, List.mem_singleton]
      exact hc
    · rw [if_neg hc] at hk
      exact absurd hk (by simp)
  · intro c p hp
    rw [hpar] at hp
    exact absurd hp (by simp)
  · intro c k hk hne
    rw [hg, if_neg hne] at hk
    exact absurd hk (by simp)
  · intro c k hk
    rw [hg] at hk
    by_cases hc : c = startC
    · rw [if_pos hc] at hk
      have h0 : (0 : Nat) = k := JVal.fin.inj hk
      show k ≤ (initState grid startC goalC).iterations
      rw [show (initState grid startC goalC).iterations = 0 from rfl]
      omega
    · rw [if_neg hc] at hk
      exact absurd hk (by simp)
  · intro h
    exact absurd h (by simp [initState])

/-- The run invariant holds in every reachable state of a run. -/
theorem runN_inv (delay : Bool) (cols rows : Nat) (grid : Coord → Cell)
    (startC goalC : Coord) (hstart : inRange cols rows startC) (n : Nat) :
    Inv cols rows grid startC goalC (runN delay cols rows grid startC goalC n) := by
  induction n with
  | zero => exact initState_inv cols rows grid startC goalC hstart
  | succ n ih =>
      have hs : runN delay cols rows grid startC goalC (n + 1) =
          step delay cols rows goalC (runN delay cols rows grid startC goalC n) :=
        Function.iterate_succ_apply' _ n _
      rw [hs]
      exact step_inv ih


/-! ### The parent chain of a reachable state -/

theorem manhattan_self (a : Coord) : manhattanDistance a a = 0 := by
  unfold manhattanDistance absDiff
  omega

/-- In a state satisfying the run invariant, the parent walk from any
discovered cell with g = k terminates at the start cell after exactly k
hops (the g values decrease by one along the chain), provided the fuel
exceeds k. -/
theorem chainW_spec {cols rows : Nat} {grid : Coord → Cell}
    {startC goalC : Coord} {s : SState}
    (hInv : Inv cols rows grid startC goalC s) :
    ∀ (k : Nat) (c : Coord), (s.cells c).g = JVal.fin k → ∀ fuel : Nat, k < fuel →
      chainW s.cells fuel (some c) ≠ [] ∧
      (chainW s.cells fuel (some c)).head? = some c ∧
      (chainW s.cells fuel (some c)).getLast? = some startC ∧
      (chainW s.cells fuel (some c)).length = k + 1 ∧
      List.Chain' (fun a b => (s.cells a).parent = some b)
        (chainW s.cells fuel (some c)) ∧
      (∀ d ∈ chainW s.cells fuel (some c), ∃ kd : Nat, (s.cells d).g = JVal.fin kd) := by
  intro k
  induction k with
  | zero =>
      intro c hc fuel hfuel
      have hcstart : c = startC := by
        by_contra hne
        have hpar := hInv.parentOfFinite c 0 hc hne
        cases hp : (s.cells c).parent with
        | none => exact hpar hp
        | some p =>
            obtain ⟨-, -, m, -, hm2⟩ := hInv.parentInv c p hp
            rw [hc] at hm2
            have hmm := JVal.fin.inj hm2
            omega
      subst hcstart
      obtain ⟨f, rfl⟩ : ∃ f, fuel = f + 1 := ⟨fuel - 1, by omega⟩
      have hchain : chainW s.cells (f + 1) (some c) = [c] := by
        rw [chainW, hInv.startCellInv.2, chainW_none]
      rw [hchain]
      refine ⟨by simp, rfl, List.getLast?_singleton c, rfl, List.chain'_singleton c, ?_⟩
      intro d hd
      rw [List.mem_singleton] at hd
      subst hd
      exact ⟨0, hc⟩
  | succ k ih =>
      intro c hc fuel hfuel
      have hcne : c ≠ startC := by
        rintro rfl
        rw [hInv.startCellInv.1] at hc
        have h0 := JVal.fin.inj hc
        omega
      cases hp : (s.cells c).parent with
      | none => exact absurd hp (hInv.parentOfFinite c (k + 1) hc hcne)
      | some p =>
          obtain ⟨hpcl, hcnb, m, hm1, hm2⟩ := hInv.parentInv c p hp
          have hmk : k = m := by
            rw [hc] at hm2
            have hmm := JVal.fin.inj hm2
            omega
          subst hmk
          obtain ⟨f, rfl⟩ : ∃ f, fuel = f + 1 := ⟨fuel - 1, by omega⟩
          have hkf : k < f := by omega
          obtain ⟨hne2, hhead, hlast, hlen, hchain, hfin⟩ := ih p hm1 f hkf
          have hstep : chainW s.cells (f + 1) (some c) =
              c :: chainW s.cells f (some p) := by
            rw [chainW, hp]
          rw [hstep]
          cases hcw : chainW s.cells f (some p) with
          | nil => exact absurd hcw hne2
          | cons q l =>
              obtain rfl : q = p := by
                rw [hcw] at hhead
                simpa using hhead
              rw [hcw] at hlast hlen hchain hfin
              refine ⟨by simp, rfl, ?_, ?_, ?_, ?_⟩
              · rw [List.getLast?_cons_cons]
                exact hlast
              · simp only [List.length_cons] at hlen
                simp only [List.length_cons, hlen]
              · rw [List.chain'_cons]
                exact ⟨hp, hchain⟩
              · intro d hd
                rcases List.mem_cons.mp hd with rfl | hd2
                · exact ⟨k + 1, hc⟩
                · exact hfin d hd2

/-- Following parent links, which always point to an orthogonal grid
neighbor, the Manhattan distance between the ends of a chain is at most
its hop count. -/
theorem chain_manhattan {cols rows : Nat} {grid : Coord → Cell}
    {startC goalC : Coord} {s : SState}
    (hInv : Inv cols rows grid startC goalC s) :
    ∀ (l : List Coord) (a b : Coord),
      List.Chain' (fun u v => (s.cells u).parent = some v) (a :: l) →
      (a :: l).getLast? = some b →
      manhattanDistance a b ≤ l.length := by
  intro l
  induction l with
  | nil =>
      intro a b _ hlast
      obtain rfl : a = b := by simpa using hlast
      simp [manhattan_self]
  | cons a2 l ih =>
      intro a b hchain hlast
      rw [List.chain'_cons] at hchain
      obtain ⟨hpar, hchain2⟩ := hchain
      obtain ⟨-, hnb, -⟩ := hInv.parentInv a a2 hpar
      have h1 : manhattanDistance a a2 = 1 := by
        rw [manhattan_comm]
        exact neighbors_manhattan hnb
      have h2 : manhattanDistance a2 b ≤ l.length := by
        refine ih a2 b hchain2 ?_
        rw [List.getLast?_cons_cons] at hlast
        exact hlast
      have h3 := manhattan_triangle a a2 b
      simp only [List.length_cons]
      omega

/-! ### Completeness: a free path keeps the open list non-empty -/

theorem closed_walk {cols rows : Nat} {grid : Coord → Cell}
    {startC goalC : Coord} {s : SState}
    (hInv : Inv cols rows grid startC goalC s) (hrun : s.status = .running)
    (hopen : s.openL = []) :
    ∀ (p : List Coord) (a : Coord), p.head? = some a → a ∈ s.closedL →
      (∀ c ∈ p, (grid c).obstacle = false) →
      ChainOk cols rows p →
      ∀ b, p.getLast? = some b → b ∈ s.closedL := by
  intro p
  induction p with
  | nil =>
      intro a ha
      simp at ha
  | cons a0 rest ih =>
      intro a ha hacl hob hchain b hb
      obtain rfl : a0 = a := by simpa using ha
      cases rest with
      | nil =>
          obtain rfl : a0 = b := by simpa using hb
          exact hacl
      | cons a1 rest2 =>
          have hchain2 : a1 ∈ neighbors cols rows a0 ∧
              ChainOk cols rows (a1 :: rest2) := hchain
          obtain ⟨hnb, hchain2⟩ := hchain2
          have hob1 : (grid a1).obstacle = false := hob a1 (by simp)
          have ha1 : a1 ∈ s.closedL := by
            rcases hInv.frontier hrun a0 hacl a1 hnb hob1 with hmem | hmem
            · rw [hopen] at hmem
              exact absurd hmem (List.not_mem_nil a1)
            · exact hmem
          refine ih a1 rfl ha1 (fun c hc => hob c (List.mem_cons_of_mem a0 hc))
            hchain2 b ?_
          rw [List.getLast?_cons_cons] at hb
          exact hb

theorem open_nonempty {cols rows : Nat} {grid : Coord → Cell}
    {startC goalC : Coord} {s : SState} {p : List Coord}
    (hInv : Inv cols rows grid startC goalC s) (hrun : s.status = .running)
    (hpath : IsFreePath cols rows grid startC goalC p) :
    s.openL ≠ [] := by
  intro hopen
  obtain ⟨hhead, hlast, hob, hchain⟩ := hpath
  have hstartcl : startC ∈ s.closedL := by
    rcases hInv.startPlaced hrun with h | ⟨hopeq, -⟩
    · exact h
    · rw [hopen] at hopeq
      exact absurd hopeq (by simp)
  cases p with
  | nil => simp at hhead
  | cons p0 rest =>
      obtain rfl : startC = p0 := by
        have h := hhead
        simp at h
        exact h.symm
      have hgoal : goalC ∈ s.closedL :=
        closed_walk hInv hrun hopen (startC :: rest) startC rfl hstartcl hob hchain
          goalC hlast
      exact hInv.goalOpen hrun hgoal

/-- While a free path exists and the grid has at most 5000 cells, a
loop iteration never fails: the open list cannot empty out before the
goal is closed, and the iteration cap cannot be reached because every
iteration closes a distinct in-range cell. -/
theorem step_status_progress {delay : Bool} {cols rows : Nat} {grid : Coord → Cell}
    {startC goalC : Coord} {s : SState} {p : List Coord}
    (hInv : Inv cols rows grid startC goalC s)
    (hsize : cols * rows ≤ 5000)
    (hpath : IsFreePath cols rows grid startC goalC p)
    (hstat : s.status = .running ∨ s.status = .succeeded) :
    (step delay cols rows goalC s).status = .running ∨
    (step delay cols rows goalC s).status = .succeeded := by
  rcases hstat with hrun | hsucc
  · cases hop : s.openL with
    | nil => exact absurd hop (open_nonempty hInv hrun hpath)
    | cons c0 rest =>
        rw [step_expand delay cols rows goalC s c0 rest hrun hop]
        obtain ⟨hmid, hcurcl, kc, hkc, hkci⟩ := expandSelect_mid hInv hrun hop
        by_cases hgoal : (expandSelect s c0 rest).1 = goalC
        · right
          simp [stepB, hgoal]
        · have hiterbound : (expandSelect s c0 rest).2.iterations ≤ 5000 := by
            have h1 := hmid.iterEq
            have h2 : (expandSelect s c0 rest).2.closedL.length ≤ cols * rows :=
              coord_list_card hmid.slim.closedNodup
                (fun c hc => hmid.memRange c (Or.inr hc))
            omega
          have hcap : ¬(5000 < ((neighbors cols rows (expandSelect s c0 rest).1).foldl
              (processNeighbor goalC (expandSelect s c0 rest).1)
              (expandSelect s c0 rest).2).iterations) := by
            rw [foldl_pn_iterations]
            omega
          left
          have he : stepB cols rows goalC (expandSelect s c0 rest).1
              (expandSelect s c0 rest).2 =
              (neighbors cols rows (expandSelect s c0 rest).1).foldl
                (processNeighbor goalC (expandSelect s c0 rest).1)
                (expandSelect s c0 rest).2 := by
            simp [stepB, hgoal, hcap]
          rw [he, foldl_pn_status]
          exact hrun
  · rw [step_of_not_running (by rw [hsucc]; simp)]
    exact Or.inr hsucc

theorem runN_status (delay : Bool) {cols rows : Nat} {grid : Coord → Cell}
    {startC goalC : Coord} {p : List Coord}
    (hstart : inRange cols rows startC) (hsize : cols * rows ≤ 5000)
    (hpath : IsFreePath cols rows grid startC goalC p) (n : Nat) :
    (runN delay cols rows grid startC goalC n).status = .running ∨
    (runN delay cols rows grid startC goalC n).status = .succeeded := by
  induction n with
  | zero => exact Or.inl rfl
  | succ n ih =>
      have hs : runN delay cols rows grid startC goalC (n + 1) =
          step delay cols rows goalC (runN delay cols rows grid startC goalC n) :=
        Function.iterate_succ_apply' _ n _
      rw [hs]
      exact step_status_progress
        (runN_inv delay cols rows grid startC goalC hstart n) hsize hpath ih

theorem runToCompletion_succeeds (delay : Bool) {cols rows : Nat}
    {grid : Coord → Cell} {startC goalC : Coord} {p : List Coord}
    (hstart : inRange cols rows startC) (hsize : cols * rows ≤ 5000)
    (hpath : IsFreePath cols rows grid startC goalC p) :
    (runToCompletion delay cols rows grid startC goalC).status = .succeeded := by
  have hterm : (runN delay cols rows grid startC goalC 5002).status ≠ .running := by
    intro h
    have h1 := runN_running_iter delay cols rows grid startC goalC 5002 h
    have h2 := runN_running_iter_eq delay cols rows grid startC goalC 5002 h
    omega
  rcases runN_status delay hstart hsize hpath 5002 with h | h
  · exact absurd h hterm
  · exact h


/-- Once the run has reached a terminal state, the remaining loop-
condition checks of runToCompletion change nothing. -/
theorem runToCompletion_eq_runN (delay : Bool) (cols rows : Nat)
    (grid : Coord → Cell) (startC goalC : Coord) (k : Nat) (hk : k ≤ 5002)
    (hterm : (runN delay cols rows grid startC goalC k).status ≠ .running) :
    runToCompletion delay cols rows grid startC goalC =
      runN delay cols rows grid startC goalC k := by
  show Nat.iterate (step delay cols rows goalC) 5002 (initState grid startC goalC) = _
  rw [show (5002 : Nat) = (5002 - k) + k by omega, Function.iterate_add_apply]
  exact iterate_step_of_not_running hterm _

/-- Claim C1 (amended): for every grid of at most 5000 cells whose
obstacles do not separate the in-range start from the goal, running the
search to completion ends in the succeeded state, and the reconstructed
path's edge count equals the goal cell's final g value, which is at
least the Manhattan distance between start and goal. (Equality with the
Manhattan distance can fail when obstacles force a detour, as the
counterexample shows, and grids beyond 5000 cells can instead fail at
the iteration cap.) -/
theorem claim_C1 (delay : Bool) (cols rows : Nat) (grid : Coord → Cell)
    (startC goalC : Coord) (p : List Coord)
    (hstart : inRange cols rows startC) (hsize : cols * rows ≤ 5000)
    (hpath : IsFreePath cols rows grid startC goalC p) :
    (runToCompletion delay cols rows grid startC goalC).status = .succeeded ∧
    ∃ k : Nat,
      ((runToCompletion delay cols rows grid startC goalC).cells goalC).g =
        JVal.fin k ∧
      (runToCompletion delay cols rows grid startC goalC).finalPath.length = k + 1 ∧
      manhattanDistance startC goalC ≤ k := by
  have hsucc := runToCompletion_succeeds delay hstart hsize hpath
  have hInv : Inv cols rows grid startC goalC
      (runToCompletion delay cols rows grid startC goalC) :=
    runN_inv delay cols rows grid startC goalC hstart 5002
  obtain ⟨hfp, hgcl⟩ := hInv.succInv hsucc
  obtain ⟨k, hk⟩ := hInv.memFinite goalC (Or.inr hgcl)
  have hkb : k < cols * rows + 1 := by
    have h1 := hInv.gBound goalC k hk
    have h2 := hInv.iterEq
    have h3 : (runToCompletion delay cols rows grid startC goalC).closedL.length ≤
        cols * rows :=
      coord_list_card hInv.slim.closedNodup (fun c hc => hInv.memRange c (Or.inr hc))
    omega
  obtain ⟨hne, hhead, hlast, hlen, hchain, -⟩ :=
    chainW_spec hInv k goalC hk (cols * rows + 1) hkb
  refine ⟨hsucc, k, hk, ?_, ?_⟩
  · rw [hfp]
    show (chainW (runToCompletion delay cols rows grid startC goalC).cells
        (cols * rows + 1) (some goalC)).reverse.length = k + 1
    rw [List.length_reverse]
    exact hlen
  · cases hcw : chainW (runToCompletion delay cols rows grid startC goalC).cells
        (cols * rows + 1) (some goalC) with
    | nil => exact absurd hcw hne
    | cons q l =>
        have hq : q = goalC := by
          rw [hcw] at hhead
          simpa using hhead
        rw [hcw, hq] at hchain hlast
        have hman : manhattanDistance goalC startC ≤ l.length :=
          chain_manhattan hInv l goalC startC hchain hlast
        rw [hcw] at hlen
        simp only [List.length_cons] at hlen
        have hcomm := manhattan_comm startC goalC
        omega

/-- Witness for claim C1 on an obstacle-free 2 × 2 grid. -/
theorem claim_C1_witness :
    (runToCompletion true 2 2 freeGrid ⟨0, 0⟩ ⟨1, 1⟩).status = .succeeded ∧
    ∃ k : Nat,
      ((runToCompletion true 2 2 freeGrid ⟨0, 0⟩ ⟨1, 1⟩).cells ⟨1, 1⟩).g =
        JVal.fin k ∧
      (runToCompletion true 2 2 freeGrid ⟨0, 0⟩ ⟨1, 1⟩).finalPath.length = k + 1 ∧
      manhattanDistance ⟨0, 0⟩ ⟨1, 1⟩ ≤ k :=
  claim_C1 true 2 2 freeGrid ⟨0, 0⟩ ⟨1, 1⟩ [⟨0, 0⟩, ⟨1, 0⟩, ⟨1, 1⟩]
    (by decide) (by omega) (by decide)

/-- Counterexample to claim C1 as stated: on the 3 × 3 grid whose only
obstacle is the center cell, the obstacles do not separate start (0,1)
from goal (2,1) — a free path around the top exists and the run indeed
succeeds — but the reconstructed path has 4 edges while the Manhattan
distance is 2, so the claimed equality fails. -/
theorem claim_C1_counterexample :
    IsFreePath 3 3 (obstacleAt ⟨1, 1⟩) ⟨0, 1⟩ ⟨2, 1⟩
      [⟨0, 1⟩, ⟨0, 0⟩, ⟨1, 0⟩, ⟨2, 0⟩, ⟨2, 1⟩] ∧
    (runToCompletion true 3 3 (obstacleAt ⟨1, 1⟩) ⟨0, 1⟩ ⟨2, 1⟩).status =
      .succeeded ∧
    (runToCompletion true 3 3 (obstacleAt ⟨1, 1⟩) ⟨0, 1⟩ ⟨2, 1⟩).finalPath.length - 1 =
      4 ∧
    manhattanDistance ⟨0, 1⟩ ⟨2, 1⟩ = 2 := by
  have he := runToCompletion_eq_runN true 3 3 (obstacleAt ⟨1, 1⟩) ⟨0, 1⟩ ⟨2, 1⟩ 8
    (by omega) (by decide)
  refine ⟨by decide, ?_, ?_, by decide⟩
  · rw [he]
    decide
  · rw [he]
    decide

/-- Claim C6: after every successful run, the reconstructed path is the
reverse of the parent walk from the goal cell; the walk terminates at
the unique path cell whose parent is none, which is the start cell, so
the reversed list runs from start to goal along parent links and the
corrupt-structure case (a walk that never reaches a parentless cell) is
unreachable. -/
theorem claim_C6 (delay : Bool) (cols rows : Nat) (grid : Coord → Cell)
    (startC goalC : Coord) (n : Nat)
    (hstart : inRange cols rows startC)
    (hsucc : (runN delay cols rows grid startC goalC n).status = .succeeded) :
    (runN delay cols rows grid startC goalC n).finalPath =
      reconstructPath (runN delay cols rows grid startC goalC n).cells
        (cols * rows + 1) goalC ∧
    (runN delay cols rows grid startC goalC n).finalPath.head? = some startC ∧
    (runN delay cols rows grid startC goalC n).finalPath.getLast? = some goalC ∧
    ((runN delay cols rows grid startC goalC n).cells startC).parent = none ∧
    List.Chain' (fun a b =>
        ((runN delay cols rows grid startC goalC n).cells b).parent = some a)
      (runN delay cols rows grid startC goalC n).finalPath ∧
    (∀ c ∈ (runN delay cols rows grid startC goalC n).finalPath,
      ((runN delay cols rows grid startC goalC n).cells c).parent = none →
      c = startC) := by
  have hInv : Inv cols rows grid startC goalC
      (runN delay cols rows grid startC goalC n) :=
    runN_inv delay cols rows grid startC goalC hstart n
  obtain ⟨hfp, hgcl⟩ := hInv.succInv hsucc
  obtain ⟨k, hk⟩ := hInv.memFinite goalC (Or.inr hgcl)
  have hkb : k < cols * rows + 1 := by
    have h1 := hInv.gBound goalC k hk
    have h2 := hInv.iterEq
    have h3 : (runN delay cols rows grid startC goalC n).closedL.length ≤
        cols * rows :=
      coord_list_card hInv.slim.closedNodup (fun c hc => hInv.memRange c (Or.inr hc))
    omega
  obtain ⟨hne, hhead, hlast, hlen, hchain, hfin⟩ :=
    chainW_spec hInv k goalC hk (cols * rows + 1) hkb
  refine ⟨hfp, ?_, ?_, hInv.startCellInv.2, ?_, ?_⟩
  · rw [hfp]
    show (chainW (runN delay cols rows grid startC goalC n).cells
        (cols * rows + 1) (some goalC)).reverse.head? = some startC
    rw [List.head?_reverse]
    exact hlast
  · rw [hfp]
    show (chainW (runN delay cols rows grid startC goalC n).cells
        (cols * rows + 1) (some goalC)).reverse.getLast? = some goalC
    rw [List.getLast?_reverse]
    exact hhead
  · rw [hfp]
    show List.Chain' _ (chainW (runN delay cols rows grid startC goalC n).cells
        (cols * rows + 1) (some goalC)).reverse
    rw [List.chain'_reverse]
    exact hchain
  · intro c hc hpar
    rw [hfp] at hc
    have hc2 : c ∈ chainW (runN delay cols rows grid startC goalC n).cells
        (cols * rows + 1) (some goalC) := by
      rw [← List.mem_reverse]
      exact hc
    obtain ⟨kd, hkd⟩ := hfin c hc2
    by_contra hne2
    exact hInv.parentOfFinite c kd hkd hne2 hpar

/-- Witness for claim C6 on a 2 × 1 run that succeeds after two
iterations. -/
theorem claim_C6_witness :
    (runN true 2 1 freeGrid ⟨0, 0⟩ ⟨1, 0⟩ 2).finalPath =
      reconstructPath (runN true 2 1 freeGrid ⟨0, 0⟩ ⟨1, 0⟩ 2).cells
        (2 * 1 + 1) ⟨1, 0⟩ ∧
    (runN true 2 1 freeGrid ⟨0, 0⟩ ⟨1, 0⟩ 2).finalPath.head? = some ⟨0, 0⟩ ∧
    (runN true 2 1 freeGrid ⟨0, 0⟩ ⟨1, 0⟩ 2).finalPath.getLast? = some ⟨1, 0⟩ ∧
    ((runN true 2 1 freeGrid ⟨0, 0⟩ ⟨1, 0⟩ 2).cells ⟨0, 0⟩).parent = none ∧
    List.Chain' (fun a b =>
        ((runN true 2 1 freeGrid ⟨0, 0⟩ ⟨1, 0⟩ 2).cells b).parent = some a)
      (runN true 2 1 freeGrid ⟨0, 0⟩ ⟨1, 0⟩ 2).finalPath ∧
    (∀ c ∈ (runN true 2 1 freeGrid ⟨0, 0⟩ ⟨1, 0⟩ 2).finalPath,
      ((runN true 2 1 freeGrid ⟨0, 0⟩ ⟨1, 0⟩ 2).cells c).parent = none →
      c = ⟨0, 0⟩) :=
  claim_C6 true 2 1 freeGrid ⟨0, 0⟩ ⟨1, 0⟩ 2 (by decide) (by decide)

end AStar
